import Mathlib

/-!
Shallow embedding of the ISM calculator core (src/calculator.js and the
app controller) for specification checking.

Modelling conventions:
* JS strings are modelled as `List Char` of Unicode scalar values.  All
  characters appearing in the tables of this program are in the Basic
  Multilingual Plane, so `charCodeAt(0)` coincides with the code point.
* JS numbers that the program feeds through the matcher are integers in
  the data model; `NaN` (which arises from `parseInt` failure) is
  modelled by `Option Int` with `none` standing for `NaN`.
* JS exceptions are modelled with `Except String`; the public entry
  points catch them and convert them to structured failure results,
  exactly as the `try`/`catch` blocks in the source do.
* The `responseTimeMs` diagnostic fields (wall-clock timing) are not
  modelled; the specification states they have no bearing on results.
-/

/-- Set of JavaScript whitespace characters: the characters matched by the
regular expression `\s` and removed by `String.prototype.trim`. -/
def jsWsChars : List Char :=
  [ ' ', '\t', '\n', '\x0b', '\x0c', '\r',
    ' ', ' ',
    ' ', ' ', ' ', ' ', ' ', ' ',
    ' ', ' ', ' ', ' ', ' ',
    ' ', ' ', ' ', ' ', '　', '﻿' ]

/-- Whether a character is JavaScript whitespace. -/
def isJsSpace (c : Char) : Bool := jsWsChars.contains c

/-- Drop trailing whitespace, second half of `String.prototype.trim`. -/
def dropTrailingWs (l : List Char) : List Char :=
  (l.reverse.dropWhile isJsSpace).reverse

/-- JavaScript `String.prototype.trim`: drop leading and trailing
whitespace. -/
def jsTrim (l : List Char) : List Char :=
  dropTrailingWs (l.dropWhile isJsSpace)

/-- Model of `.replace(/\s+/g, ' ')`: every maximal run of whitespace
characters is replaced by a single ASCII space. -/
def collapseWs : List Char → List Char
  | [] => []
  | [c] => if isJsSpace c then [' '] else [c]
  | c1 :: c2 :: rest =>
    if isJsSpace c1 && isJsSpace c2 then collapseWs (c2 :: rest)
    else (if isJsSpace c1 then ' ' else c1) :: collapseWs (c2 :: rest)

/-- The `TextProcessor.removeSpaces` helper:
`text.trim().replace(/\s+/g, ' ')`. -/
def removeSpaces (text : List Char) : List Char :=
  collapseWs (jsTrim text)

/-- Decimal digit characters of a natural number with a structural fuel
argument (the fuel never runs out when it starts at the number
itself). -/
def natReprAux : Nat → Nat → List Char
  | 0, n => [Char.ofNat (48 + n % 10)]
  | fuel + 1, n =>
    if n < 10 then [Char.ofNat (48 + n)]
    else natReprAux fuel (n / 10) ++ [Char.ofNat (48 + n % 10)]

/-- Decimal digit characters of a natural number, most significant first
(model of the digits of JavaScript number-to-string conversion). -/
def natRepr (n : Nat) : List Char := natReprAux n n

/-- Characters of JavaScript `String(i)` for an integer `i` (exact for
the id and value magnitudes this program handles, which are far below
the 1e21 threshold where JS switches to exponent notation). -/
def intRepr (i : Int) : List Char :=
  match i with
  | .ofNat n => natRepr n
  | .negSucc n => '-' :: natRepr (n + 1)

/-- Value of a list of decimal digit characters, most significant
first. -/
def digitsVal (l : List Char) : Nat :=
  l.foldl (fun acc c => acc * 10 + (c.toNat - 48)) 0

/-- JavaScript string comparison (`<` on strings): lexicographic over
UTF-16 code units. -/
def jsStrLt : List Char → List Char → Bool
  | [], [] => false
  | [], _ :: _ => true
  | _ :: _, [] => false
  | a :: as, b :: bs =>
    if a.toNat < b.toNat then true
    else if b.toNat < a.toNat then false
    else jsStrLt as bs

/-- Whether a character is an ASCII decimal digit. -/
def isDecDigit (c : Char) : Bool := 48 ≤ c.toNat && c.toNat ≤ 57

/-- Whether a character is an ASCII hexadecimal digit. -/
def isHexDigit (c : Char) : Bool :=
  isDecDigit c || (97 ≤ c.toNat && c.toNat ≤ 102) || (65 ≤ c.toNat && c.toNat ≤ 70)

/-- Numeric value of a hexadecimal digit character. -/
def hexVal (c : Char) : Nat :=
  if isDecDigit c then c.toNat - 48
  else if 97 ≤ c.toNat then c.toNat - 87
  else c.toNat - 55

/-- Parse a maximal nonempty prefix of digits; `none` when no digit is
present (the `NaN` outcome of `parseInt`). -/
def parseDigits (isD : Char → Bool) (val : Char → Nat) (base : Nat) (l : List Char) :
    Option Nat :=
  match l.takeWhile isD with
  | [] => none
  | ds => some (ds.foldl (fun acc c => acc * base + val c) 0)

/-- ECMAScript `parseInt` with no radix argument applied to a string:
skip leading whitespace, read an optional sign, detect a `0x`/`0X`
prefix (hexadecimal) and otherwise parse a maximal decimal digit
prefix; `none` models the `NaN` result.  First, the `0x`/`0X` prefix
test: -/
def hasHexPre (l : List Char) : Bool :=
  match l with
  | c0 :: c1 :: _ => c0 = '0' && (c1 = 'x' || c1 = 'X')
  | _ => false

/-- Strip the optional sign character from the front of the
whitespace-stripped string. -/
def jsParseBody (t : List Char) : List Char :=
  if t.headD (Char.ofNat 0) = '-' ∨ t.headD (Char.ofNat 0) = '+' then t.tail else t

/-- Magnitude parse: hexadecimal after a `0x`/`0X` prefix, otherwise a
maximal decimal digit prefix. -/
def jsParseMag (t2 : List Char) : Option Nat :=
  if hasHexPre t2 then parseDigits isHexDigit hexVal 16 (t2.drop 2)
  else parseDigits isDecDigit (fun c => c.toNat - 48) 10 t2

/-- ECMAScript `parseInt` continued on the whitespace-stripped string:
optional sign, hexadecimal `0x` prefix detection, maximal digit
prefix. -/
def jsParseIntTrimmed (t : List Char) : Option Int :=
  (jsParseMag (jsParseBody t)).map
    (fun n : Nat => if t.headD (Char.ofNat 0) = '-' then -(n : Int) else (n : Int))

/-- Whole `parseInt` on a string: strip leading whitespace, then parse
sign and digits. -/
def jsParseIntStr (s : List Char) : Option Int :=
  jsParseIntTrimmed (s.dropWhile isJsSpace)

/-- Map with a running index starting at `i`, model of the JS
`array.map((item, i) => ...)` idiom. -/
def mapIdxFrom (f : Nat → α → β) : Nat → List α → List β
  | _, [] => []
  | i, a :: as => f i a :: mapIdxFrom f (i + 1) as

/-- The ASCII apostrophe, used when rebuilding diagnostic messages. -/
def quoteChar : Char := Char.ofNat 39

/-- The fifteen diacritical marks of `TextProcessor.ARABIC_DIACRITICS`. -/
def arabicDiacritics : List Char :=
  [ 'ً', 'ٌ', 'ٍ', 'َ', 'ُ', 'ِ', 'ّ',
    'ْ', 'ٓ', 'ٔ', 'ٕ', 'ٖ', 'ٗ', '٘',
    'ٰ' ]

/-- Whether a character is one of the removable diacritical marks. -/
def isDiacritic (c : Char) : Bool := arabicDiacritics.contains c

/-- The variant table `TextProcessor.ARABIC_CHAR_VARIANTS`. -/
def arabicCharVariants : List (Char × Char) :=
  [ ('ى', 'ا'), ('ٱ', 'ا'), ('ڀ', 'ب'),
    ('ھ', 'ه'), ('ہ', 'ه'), ('ۂ', 'ه'),
    ('ٸ', 'ي'), ('ے', 'ي'), ('ۓ', 'ي') ]

/-- Canonicalization of one character through the variant table. -/
def normVariant (c : Char) : Char :=
  match arabicCharVariants.lookup c with
  | some d => d
  | none => c

/-- The explicit allow-list `TextProcessor.VALID_ARABIC_LETTERS`. -/
def validArabicLetters : List Char :=
  [ 'ا', 'ب', 'ت', 'ث', 'ج', 'ح', 'خ',
    'د', 'ذ', 'ر', 'ز', 'س', 'ش', 'ص',
    'ض', 'ط', 'ظ', 'ع', 'غ', 'ف', 'ق',
    'ك', 'ل', 'م', 'ن', 'ه', 'و', 'ي',
    'ٹ', 'پ', 'گ', 'ں', 'ہ', 'ۃ', 'ڈ',
    'ڑ', 'ړ', 'ژ', 'ے', '۔' ]

/-- The `TextProcessor.isArabicUrduChar` test: allow-list membership or
the Arabic block `U+0600`..`U+06FF` or the Arabic Supplement block
`U+0750`..`U+077F`. -/
def isArabicUrduChar (c : Char) : Bool :=
  validArabicLetters.contains c ||
    (0x0600 ≤ c.toNat && c.toNat ≤ 0x06FF) ||
    (0x0750 ≤ c.toNat && c.toNat ≤ 0x077F)

/-- Step 4 of `processNameInput`: traverse the text keeping spaces
(unless `removeSpacesBetween`) and valid letters, collecting invalid
characters; returns `(cleaned, nonArabicChars)`. -/
def stepFilter (removeSpacesBetween : Bool) : List Char → List Char × List Char
  | [] => ([], [])
  | c :: rest =>
    let (cl, na) := stepFilter removeSpacesBetween rest
    if c = ' ' then (if removeSpacesBetween then (cl, na) else (c :: cl, na))
    else if isArabicUrduChar c then (c :: cl, na)
    else (cl, c :: na)

/-- The `Non-Arabic characters found` error message: previews at most
three offenders and counts the rest. -/
def nonArabicMsg (na : List Char) : String :=
  let q := String.singleton quoteChar
  let charList :=
    String.intercalate ", " ((na.take 3).map (fun c => q ++ String.singleton c ++ q))
  let extra :=
    if na.length > 3 then " and " ++ toString (na.length - 3) ++ " more" else ""
  "Non-Arabic characters found: " ++ charList ++ extra

/-- Status record returned by `TextProcessor.processNameInput`. -/
structure NormStatus where
  success : Bool
  original : List Char
  cleaned : List Char
  length : Nat
  warnings : List String
  errors : List String
  hasDiacritics : Bool
  charCount : Nat
deriving Repr, DecidableEq

/-- Step 2 of `processNameInput`: remove diacritical marks when any are
present (when none are present the conditional filter of the source is
skipped, which is the identity anyway). -/
def normStage2 (text1 : List Char) : List Char :=
  if text1.any isDiacritic then text1.filter (fun c => !isDiacritic c) else text1

/-- Step 3 of `processNameInput`: canonicalize variant letterforms. -/
def normStage3 (text1 : List Char) : List Char :=
  (normStage2 text1).map normVariant

/-- Warnings accumulated by steps 2 and 3. -/
def normWarns (text1 : List Char) : List String :=
  (if text1.any isDiacritic then ["Diacritical marks removed"] else []) ++
    (if normStage3 text1 ≠ normStage2 text1 then ["Character variants normalized"]
     else [])

/-- Errors reported by step 4 (invalid characters found). -/
def normErrs1 (removeSpacesBetween : Bool) (text1 : List Char) : List String :=
  if (stepFilter removeSpacesBetween (normStage3 text1)).2 ≠ [] then
    [nonArabicMsg (stepFilter removeSpacesBetween (normStage3 text1)).2]
  else []

/-- The cleaned output of steps 2-5 for a nonempty step-1 result. -/
def normCleaned (removeSpacesBetween : Bool) (text1 : List Char) : List Char :=
  removeSpaces (stepFilter removeSpacesBetween (normStage3 text1)).1

/-- Body of `processNameInput` once the step-1 `removeSpaces` result
`text1` is available; `input` is only used for the `original` field. -/
def procBody (input : List Char) (removeSpacesBetween : Bool) (text1 : List Char) :
    List Char × NormStatus :=
  if text1 = [] then
    ([], { success := false, original := input, cleaned := [], length := 0,
           warnings := [], errors := ["Empty input"], hasDiacritics := false,
           charCount := 0 })
  else if normCleaned removeSpacesBetween text1 = [] then
    ([], { success := false, original := input, cleaned := [], length := 0,
           warnings := normWarns text1,
           errors := normErrs1 removeSpacesBetween text1 ++
             ["No valid Arabic/Urdu characters found"],
           hasDiacritics := text1.any isDiacritic, charCount := 0 })
  else
    (normCleaned removeSpacesBetween text1,
     { success := true, original := input,
       cleaned := normCleaned removeSpacesBetween text1,
       length := (normCleaned removeSpacesBetween text1).length,
       warnings := normWarns text1, errors := normErrs1 removeSpacesBetween text1,
       hasDiacritics := text1.any isDiacritic,
       charCount := (normCleaned removeSpacesBetween text1).length })

/-- The Script Normalizer, `TextProcessor.processNameInput`. -/
def processNameInput (input : List Char) (removeSpacesBetween : Bool := false) :
    List Char × NormStatus :=
  procBody input removeSpacesBetween (removeSpaces input)

/-- A catalog entity (`divine name` record) with its precomputed value. -/
structure Entity where
  id : Int
  arabic_name : String
  english_name : String
  meaning : String
  abjad_value : Int
deriving Repr, DecidableEq

/-- The fields of the singleton `DataLoader`: the letter-weight table,
the entity catalog, and the value index keyed by the decimal string of
an integer value (modelled with integer keys). -/
structure DataLoader where
  abjadValues : List (Char × Int)
  divineNames : List Entity
  namesIndex : List (Int × List Entity)
deriving Repr, DecidableEq

/-- The `loaded` flag computed by `loadAll`: both the weight table and
the catalog are nonempty.  It is never consulted by the core paths. -/
def DataLoader.isLoaded (l : DataLoader) : Bool :=
  !l.abjadValues.isEmpty && !l.divineNames.isEmpty

/-- Model of `DataLoader.getLetterValue`: throws when the weight table
is empty; otherwise `this.abjadValues[letter] || null`, so a weight of
`0` (falsy) is also reported as `null`. -/
def getLetterValue (l : DataLoader) (letter : Char) : Except String (Option Int) :=
  if l.abjadValues = [] then .error "Abjad values not loaded. Call loadAll() first."
  else .ok (match l.abjadValues.lookup letter with
            | some v => if v = 0 then none else some v
            | none => none)

/-- Model of `DataLoader.getNamesByValue`: throws when the index is
empty; otherwise `this.namesIndex[String(value)] || []`.  A `NaN` value
(`none`) misses every key because all keys are decimal strings of the
integer entity values. -/
def getNamesByValue (l : DataLoader) (value : Option Int) : Except String (List Entity) :=
  if l.namesIndex = [] then .error "Names index not loaded. Call loadAll() first."
  else .ok (match value with
            | some v => (match l.namesIndex.lookup v with
                         | some es => es
                         | none => [])
            | none => [])

/-- Entry of the per-character ledger built by
`AbjadCalculator.calculateAbjadValue`; `position` here is the 0-based
index of the character in the input string (the loop variable). -/
structure InnerRecord where
  character : Char
  value : Int
  position : Nat
deriving Repr, DecidableEq

/-- The `CalculationResult` record of the Value Calculator. -/
structure CalcResult where
  success : Bool
  totalValue : Int
  inputName : List Char
  characterBreakdown : List InnerRecord
  charCount : Nat
  errors : List String
  warnings : List String
deriving Repr, DecidableEq

/-- Warning emitted for a character absent from the weight table. -/
def unmappedWarning (c : Char) (pos : Nat) : String :=
  let q := String.singleton quoteChar
  "Character " ++ q ++ String.singleton c ++ q ++ " at position " ++
    toString pos ++ " not found in Abjad table"

/-- Running state of the character loop of `calculateAbjadValue`. -/
structure CalcScan where
  total : Int
  count : Nat
  breakdown : List InnerRecord
  warnings : List String
deriving Repr, DecidableEq

/-- The character loop of `calculateAbjadValue`: look up each character,
skip-and-warn when unmapped, otherwise append a ledger entry and add the
weight.  The `getLetterValue` throw propagates. -/
def calcLoop (l : DataLoader) : List Char → Nat → CalcScan → Except String CalcScan
  | [], _, st => .ok st
  | c :: rest, pos, st =>
    match getLetterValue l c with
    | .error e => .error e
    | .ok none =>
      calcLoop l rest (pos + 1)
        { st with warnings := st.warnings ++ [unmappedWarning c pos] }
    | .ok (some v) =>
      calcLoop l rest (pos + 1)
        { total := st.total + v, count := st.count + 1,
          breakdown := st.breakdown ++ [{ character := c, value := v, position := pos }],
          warnings := st.warnings }

/-- Model of `AbjadCalculator.calculateAbjadValue` on a string input.
The `typeof` guard of the source cannot fire for a string, so it is not
representable here; the empty-input guard is.  The uncaught
`getLetterValue` throw surfaces as `Except.error`. -/
def calculateAbjadValue (l : DataLoader) (arabicName : List Char) :
    Except String CalcResult :=
  if arabicName = [] then
    .ok { success := false, totalValue := 0, inputName := arabicName,
          characterBreakdown := [], charCount := 0,
          errors := ["Input name is empty"], warnings := [] }
  else
    match calcLoop l arabicName 0 { total := 0, count := 0, breakdown := [], warnings := [] } with
    | .error e => .error e
    | .ok st =>
      if st.count = 0 then
        .ok { success := false, totalValue := 0, inputName := arabicName,
              characterBreakdown := st.breakdown, charCount := 0,
              errors := ["No valid Arabic letters found in input"],
              warnings := st.warnings }
      else
        .ok { success := true, totalValue := st.total, inputName := arabicName,
              characterBreakdown := st.breakdown, charCount := st.count,
              errors := [], warnings := st.warnings }

/-- Derived state of a `NameMatcher` instance: the value-to-ids map
built by `_buildValueMap` when the instance was constructed.  The
matcher reads the catalog itself through the shared loader at call
time. -/
structure MatcherState where
  valueToIds : List (Int × List Int)
deriving Repr, DecidableEq

/-- Insert one `(value, id)` entry, appending the id to the bucket of an
existing key or creating a fresh bucket. -/
def vmAdd : List (Int × List Int) → Int → Int → List (Int × List Int)
  | [], v, i => [(v, [i])]
  | (k, ids) :: rest, v, i =>
    if k = v then (k, ids ++ [i]) :: rest else (k, ids) :: vmAdd rest v i

/-- Model of `NameMatcher._buildValueMap`: fold the catalog into a map
from value to the ids holding that value, in catalog order. -/
def buildValueMap (names : List Entity) : List (Int × List Int) :=
  names.foldl (fun m n => vmAdd m n.abjad_value n.id) []

/-- Membership of a value among the keys of the value map (the
`availableValues` set of integer keys). -/
def vmHasKey (m : List (Int × List Int)) (v : Int) : Bool :=
  m.any (fun kv => kv.1 == v)

/-- Bucket of ids recorded for a value (`this.valueToIds[value]`). -/
def vmIdsAt (m : List (Int × List Int)) (v : Int) : List Int :=
  match m.lookup v with
  | some ids => ids
  | none => []

/-- Model of `NameMatcher._getNameById`: first catalog entity with the
given id. -/
def getNameById (names : List Entity) (nameId : Int) : Option Entity :=
  names.find? (fun n => n.id == nameId)

/-- Canonical form of a pair of ids: `JSON.stringify([a, b].sort())`.
The default `sort` compares the decimal strings of the ids; the
canonical form is the correspondingly ordered pair. -/
def canonicalPair (a b : Int) : Int × Int :=
  if jsStrLt (intRepr b) (intRepr a) then (b, a) else (a, b)

/-- One pair combination as assembled by `findTwoNameCombination`
(`total` is the target value, `none` representing `NaN`). -/
structure Combination where
  name1 : Entity
  name2 : Entity
  total : Option Int
deriving Repr, DecidableEq

/-- Accumulator of the pair search: the set of canonical keys already
recorded and the combinations list. -/
structure PairAcc where
  recorded : List (Int × Int)
  combos : List Combination
deriving Repr, DecidableEq

/-- Inner loop of the pair search over the ids holding the required
complementary value: skip self-pairs, skip already-recorded canonical
keys, record the key, resolve the full entity and append the
combination. -/
def scanName2Ids (names : List Entity) (name1 : Entity) (t : Option Int) :
    List Int → PairAcc → PairAcc
  | [], acc => acc
  | n2 :: rest, acc =>
    if name1.id == n2 then scanName2Ids names name1 t rest acc
    else
      let key := canonicalPair name1.id n2
      if acc.recorded.contains key then scanName2Ids names name1 t rest acc
      else
        let rec2 := key :: acc.recorded
        match getNameById names n2 with
        | none => scanName2Ids names name1 t rest { acc with recorded := rec2 }
        | some name2 =>
          let combo : Combination :=
            { name1 := { id := name1.id, arabic_name := name1.arabic_name,
                         english_name := name1.english_name,
                         meaning := name1.meaning,
                         abjad_value := name1.abjad_value },
              name2 := { id := n2, arabic_name := name2.arabic_name,
                         english_name := name2.english_name,
                         meaning := name2.meaning,
                         abjad_value := name2.abjad_value },
              total := t }
          scanName2Ids names name1 t rest
            { recorded := rec2, combos := acc.combos ++ [combo] }

/-- Outer loop of the pair search over the catalog: compute the
complementary value for each entity and scan its bucket when the value
index contains it.  A `NaN` target (`none`) misses the set of integer
keys on every iteration. -/
def pairScan (m : MatcherState) (names : List Entity) (t : Option Int) :
    List Entity → PairAcc → PairAcc
  | [], acc => acc
  | n1 :: rest, acc =>
    let acc2 :=
      match t with
      | none => acc
      | some tv =>
        let req := tv - n1.abjad_value
        if vmHasKey m.valueToIds req then
          scanName2Ids names n1 t (vmIdsAt m.valueToIds req) acc
        else acc
    pairScan m names t rest acc2

/-- Comparison used to sort combinations: ascending by
`(name1.id, name2.id)`. -/
def comboLE (a b : Combination) : Bool :=
  a.name1.id < b.name1.id || (a.name1.id == b.name1.id && a.name2.id ≤ b.name2.id)

/-- A `MatchResult` of either strategy. -/
inductive MatchResult where
  | direct (found : Bool) (divineNames : List Entity) (count : Nat)
  | pair (found : Bool) (abjadValue : Option Int) (combinations : List Combination)
      (count : Nat)
deriving Repr, DecidableEq

/-- Combinations carried by a match result (empty for a direct one). -/
def MatchResult.combinations : MatchResult → List Combination
  | .direct _ _ _ => []
  | .pair _ _ cs _ => cs

/-- Found flag of a match result. -/
def MatchResult.found : MatchResult → Bool
  | .direct f _ _ => f
  | .pair f _ _ _ => f

/-- Model of `NameMatcher.findTwoNameCombination`: run the pair scan,
sort the combinations by `(name1.id, name2.id)` (a stable sort, like
the JS array sort with this comparator) and truncate to `limit`
(default 10). -/
def findTwoNameCombination (m : MatcherState) (l : DataLoader)
    (abjadValue : Option Int) (limit : Nat := 10) : MatchResult :=
  let acc := pairScan m l.divineNames abjadValue l.divineNames
    { recorded := [], combos := [] }
  let combos := (acc.combos.insertionSort (fun a b => comboLE a b = true)).take limit
  .pair (combos.length > 0) abjadValue combos combos.length

/-- Model of `NameMatcher.findDirectMatch` (timing field omitted). -/
def findDirectMatch (l : DataLoader) (abjadValue : Option Int) :
    Except String MatchResult :=
  match getNamesByValue l abjadValue with
  | .error e => .error e
  | .ok matchingNames =>
    if matchingNames.length > 0 then
      .ok (.direct true matchingNames matchingNames.length)
    else .ok (.direct false matchingNames 0)

/-- Model of `NameMatcher.findMatch`: direct lookup first, pair search
only when the direct match found nothing. -/
def findMatch (m : MatcherState) (l : DataLoader) (abjadValue : Option Int) :
    Except String MatchResult :=
  match findDirectMatch l abjadValue with
  | .error e => .error e
  | .ok directResult =>
    if directResult.found then .ok directResult
    else .ok (findTwoNameCombination m l abjadValue)

/-- JavaScript values that reach the public entry points. `vfrac`
represents a finite non-integral decimal whose `String()` form is plain
sign, integer digits, point, fraction digits (the notation JS uses for
the magnitudes this program handles). -/
inductive JSVal where
  | vstr (s : List Char)
  | vnum (n : Int)
  | vfrac (neg : Bool) (ipart : Nat) (fdigits : List Char)
  | vnull
  | vundef
  | vbool (b : Bool)
deriving Repr, DecidableEq

/-- JavaScript `ToString` of such a value. -/
def jsToString : JSVal → List Char
  | .vstr s => s
  | .vnum n => intRepr n
  | .vfrac neg ip ds => (if neg then ['-'] else []) ++ natRepr ip ++ '.' :: ds
  | .vnull => String.toList "null"
  | .vundef => String.toList "undefined"
  | .vbool true => String.toList "true"
  | .vbool false => String.toList "false"

/-- `parseInt(value)`: coerce to string, then parse.  Never throws. -/
def jsParseInt (v : JSVal) : Option Int := jsParseIntStr (jsToString v)

/-- Public breakdown entry emitted by `calculateAbjad`: a 1-based
position counted only among included characters. -/
structure PublicRecord where
  position : Nat
  character : Char
  value : Int
deriving Repr, DecidableEq

/-- Re-emission of one ledger entry by `calculateAbjad`: a 1-based
position counted along the breakdown array. -/
def pubRecOf (i : Nat) (item : InnerRecord) : PublicRecord :=
  { position := i + 1, character := item.character, value := item.value }

/-- Result shape of the public `calculateAbjad` entry point. -/
inductive CalcAPIResult where
  | failure (error : String)
  | success (totalValue : Int) (inputName : List Char) (cleanedName : List Char)
      (characterBreakdown : List PublicRecord) (charCount : Nat)
deriving Repr, DecidableEq

/-- Success flag of a public calculation result. -/
def CalcAPIResult.isSuccess : CalcAPIResult → Bool
  | .failure _ => false
  | .success _ _ _ _ _ => true

/-- Breakdown of a public calculation result (empty on failure). -/
def CalcAPIResult.breakdown : CalcAPIResult → List PublicRecord
  | .failure _ => []
  | .success _ _ _ bk _ => bk

/-- Running the normalizer on a public argument: a non-string receiver
makes `inputString.trim()` raise a `TypeError` (engine-specific message,
modelled as a fixed string). -/
def processNameInputJS (v : JSVal) : Except String (List Char × NormStatus) :=
  match v with
  | .vstr s => .ok (processNameInput s)
  | _ => .error "inputString.trim is not a function"

/-- Comma-space join used for error lists. -/
def joinComma (l : List String) : String := String.intercalate ", " l

/-- Body of the `try` block of the public `calculateAbjad`: normalizer,
then calculator, with the early structured failures of the source; the
breakdown is re-emitted with 1-based positions. -/
def calculateAbjadTry (l : DataLoader) (name : JSVal) : Except String CalcAPIResult :=
  match processNameInputJS name with
  | .error e => .error e
  | .ok (cleanedName, status) =>
    if status.success = false then
      .ok (.failure ("Invalid input: " ++ joinComma status.errors))
    else
      match calculateAbjadValue l cleanedName with
      | .error e => .error e
      | .ok calcResult =>
        if calcResult.success = false then
          .ok (.failure (joinComma calcResult.errors))
        else
          .ok (.success calcResult.totalValue (jsToString name) calcResult.inputName
            (mapIdxFrom pubRecOf 0 calcResult.characterBreakdown)
            calcResult.charCount)

/-- The public `calculateAbjad` entry point: the surrounding
`try`/`catch` converts any internal exception to a failure result. -/
def calculateAbjad (l : DataLoader) (name : JSVal) : CalcAPIResult :=
  match calculateAbjadTry l name with
  | .ok r => r
  | .error e => .failure e

/-- Process-wide mutable state: the singleton `DataLoader` and the
lazily created singleton `NameMatcher` (the stateless calculator
singleton is not tracked). -/
structure ISMState where
  loader : DataLoader
  matcherCache : Option MatcherState
deriving Repr, DecidableEq

/-- State before any initialization: empty loader, no matcher yet. -/
def initialState : ISMState :=
  { loader := { abjadValues := [], divineNames := [], namesIndex := [] },
    matcherCache := none }

/-- Model of `initializeCalculator`: `loadAll` replaces the fields of
the shared loader.  The cached `NameMatcher` singleton, and with it the
`valueToIds` map derived at its construction, is left untouched. -/
def initializeCalculator (s : ISMState) (abjadValues : List (Char × Int))
    (divineNames : List Entity) (namesIndex : List (Int × List Entity)) : ISMState :=
  { s with loader := { abjadValues := abjadValues, divineNames := divineNames,
                       namesIndex := namesIndex } }

/-- Model of `getMatcher`: return the cached matcher, or construct one
(running `_buildValueMap` over the current catalog) and cache it. -/
def getMatcherS (s : ISMState) : MatcherState × ISMState :=
  match s.matcherCache with
  | some m => (m, s)
  | none =>
    let m : MatcherState := { valueToIds := buildValueMap s.loader.divineNames }
    (m, { s with matcherCache := some m })

/-- Result shape of the public `matchDivineNames` entry point. -/
inductive MatchAPIResult where
  | failure (error : String)
  | directR (found : Bool) (divineNames : List Entity) (count : Nat)
  | pairR (found : Bool) (abjadValue : Option Int) (combinations : List Combination)
      (count : Nat)
deriving Repr, DecidableEq

/-- Success flag of a public match result (`success: false` only for
the failure shape). -/
def MatchAPIResult.isSuccess : MatchAPIResult → Bool
  | .failure _ => false
  | _ => true

/-- The public `matchDivineNames` entry point: reject `null` and
`undefined`, convert with `parseInt` (which never throws, so the `Abjad
value must be a number` branch of the source is unreachable), fetch the
cached matcher and run `findMatch`; exceptions become failures but the
matcher created by `getMatcher` stays cached. -/
def matchDivineNames (s : ISMState) (abjadValue : JSVal) : MatchAPIResult × ISMState :=
  match abjadValue with
  | .vnull => (.failure "Abjad value is required", s)
  | .vundef => (.failure "Abjad value is required", s)
  | v =>
    let t := jsParseInt v
    let ms := getMatcherS s
    match findMatch ms.1 ms.2.loader t with
    | .error e => (.failure e, ms.2)
    | .ok (.direct f names cnt) => (.directR f names cnt, ms.2)
    | .ok (.pair f av cs cnt) => (.pairR f av cs cnt, ms.2)

/-- Outcome of one run of the app controller pipeline
(`handleCalculate`), display calls omitted. -/
inductive PipelineOutcome where
  | promptEmpty
  | calcError (msg : String)
  | completed (calcRes : CalcAPIResult) (matchRes : MatchAPIResult)
deriving Repr, DecidableEq

/-- Model of the `handleCalculate` controller: trim the raw field value,
prompt on empty, run `calculateAbjad`, and only on success run
`matchDivineNames` with the computed total. -/
def runPipeline (s : ISMState) (raw : List Char) : PipelineOutcome × ISMState :=
  let name := jsTrim raw
  if name = [] then (.promptEmpty, s)
  else
    match calculateAbjad s.loader (.vstr name) with
    | .failure e => (.calcError e, s)
    | .success tv inp cl bk cc =>
      let mr := matchDivineNames s (.vnum tv)
      (.completed (.success tv inp cl bk cc) mr.1, mr.2)

/-- No two adjacent whitespace characters. -/
def noWsPair : List Char → Bool
  | [] => true
  | [_] => true
  | a :: b :: rest => !(isJsSpace a && isJsSpace b) && noWsPair (b :: rest)

/-- Every whitespace character in the list is the ASCII space. -/
def allWsIsSpace (l : List Char) : Bool :=
  l.all (fun c => !isJsSpace c || c = ' ')

/-- Whether a character has a (truthy) weight in the loaded table. -/
def isMapped (l : DataLoader) (c : Char) : Bool :=
  match getLetterValue l c with
  | .ok (some _) => true
  | _ => false

/-- Soundness property of one combination for target value `v`. -/
def comboSound (v : Int) (co : Combination) : Prop :=
  co.name1.id ≠ co.name2.id ∧ co.name1.abjad_value + co.name2.abjad_value = v

/-- Canonical unordered key of a combination's pair of ids. -/
def comboKey (co : Combination) : Int × Int :=
  canonicalPair co.name1.id co.name2.id

/-- Two combinations carry the same unordered pair of entity ids. -/
def samePairIds (x y : Combination) : Prop :=
  (x.name1.id = y.name1.id ∧ x.name2.id = y.name2.id) ∨
    (x.name1.id = y.name2.id ∧ x.name2.id = y.name1.id)

/-- Concrete weight table for the reload scenario. -/
def c5ab : List (Char × Int) := [('ا', 1)]

/-- First catalog: two entities whose values sum to 66. -/
def c5e1 : Entity :=
  { id := 1, arabic_name := "n1", english_name := "e1", meaning := "m1",
    abjad_value := 40 }

def c5e2 : Entity :=
  { id := 2, arabic_name := "n2", english_name := "e2", meaning := "m2",
    abjad_value := 26 }

/-- Second catalog: two different entities whose values also sum to 66. -/
def c5e3 : Entity :=
  { id := 3, arabic_name := "n3", english_name := "e3", meaning := "m3",
    abjad_value := 30 }

def c5e4 : Entity :=
  { id := 4, arabic_name := "n4", english_name := "e4", meaning := "m4",
    abjad_value := 36 }

def c5cat1 : List Entity := [c5e1, c5e2]

def c5idx1 : List (Int × List Entity) := [(40, [c5e1]), (26, [c5e2])]

def c5cat2 : List Entity := [c5e3, c5e4]

def c5idx2 : List (Int × List Entity) := [(30, [c5e3]), (36, [c5e4])]

/-- State after the first `initializeCalculator`. -/
def c5s1 : ISMState := initializeCalculator initialState c5ab c5cat1 c5idx1

/-- First match call (caches the matcher singleton). -/
def c5run1 : MatchAPIResult × ISMState := matchDivineNames c5s1 (.vnum 66)

/-- State after hot-reloading the second catalog over the cached
matcher. -/
def c5s3 : ISMState := initializeCalculator c5run1.2 c5ab c5cat2 c5idx2

/-- Loader holding the first concrete catalog. -/
def wLoader1 : DataLoader :=
  { abjadValues := c5ab, divineNames := c5cat1, namesIndex := c5idx1 }

/-- Matcher built from the first concrete catalog. -/
def wMatcher1 : MatcherState := { valueToIds := buildValueMap c5cat1 }

/-- The one combination found for 66 in the first catalog. -/
def c1wCombo : Combination := { name1 := c5e1, name2 := c5e2, total := some 66 }

/-- Index with a nonempty bucket at 66. -/
def c2wIdx : List (Int × List Entity) := [(66, [c5e1, c5e2])]

/-- Loader whose index has a direct bucket at 66. -/
def c2wLoader : DataLoader :=
  { abjadValues := c5ab, divineNames := c5cat1, namesIndex := c2wIdx }

/-- Scenario-A weight table. -/
def c4wLoader : DataLoader :=
  { abjadValues := [('ا', 1), ('ل', 30), ('ه', 5)], divineNames := [],
    namesIndex := [] }

/-- Scenario-A input. -/
def c4wName : List Char := ['ا', 'ل', 'ه']

/-- Scenario-A calculation result. -/
def c4wRes : CalcResult :=
  { success := true, totalValue := 36, inputName := c4wName,
    characterBreakdown :=
      [{ character := 'ا', value := 1, position := 0 },
       { character := 'ل', value := 30, position := 1 },
       { character := 'ه', value := 5, position := 2 }],
    charCount := 3, errors := [], warnings := [] }

/-- Input with a leading space and a diacritic over the alef. -/
def c6wInput : List Char := [' ', 'ا', 'َ', 'ل', 'ه']

/-- Weight table missing the letter lam, so it is skipped. -/
def c7wLoader : DataLoader :=
  { abjadValues := [('ا', 1), ('ه', 5)], divineNames := [], namesIndex := [] }

/-- Public breakdown for Scenario A under the lam-less table: the
skipped lam consumes no position. -/
def c7wBk : List PublicRecord :=
  [{ position := 1, character := 'ا', value := 1 },
   { position := 2, character := 'ه', value := 5 }]

/-- Input with no valid script characters at all. -/
def c8wName : List Char := ['x', 'y', 'z']

/-! Helper lemmas: decimal renderings, string comparison, parseInt. -/

theorem char_toNat_ofNat (n : Nat) (h : n < 55296) : (Char.ofNat n).toNat = n := by
  have hv : n.isValidChar := Or.inl h
  simp [Char.ofNat, Char.toNat, hv, Char.ofNatAux, UInt32.toNat, BitVec.toNat_ofNatLt]

theorem natReprAux_digit (fuel : Nat) : ∀ n c, c ∈ natReprAux fuel n →
    48 ≤ c.toNat ∧ c.toNat ≤ 57 := by
  induction fuel with
  | zero =>
    intro n c hc
    simp only [natReprAux, List.mem_singleton] at hc
    subst hc
    have hlt : n % 10 < 10 := Nat.mod_lt _ (by omega)
    rw [char_toNat_ofNat (48 + n % 10) (by omega)]
    omega
  | succ fuel ih =>
    intro n c hc
    simp only [natReprAux] at hc
    split at hc
    · simp only [List.mem_singleton] at hc
      subst hc
      rw [char_toNat_ofNat (48 + n) (by omega)]
      omega
    · rcases List.mem_append.mp hc with h1 | h2
      · exact ih _ _ h1
      · simp only [List.mem_singleton] at h2
        subst h2
        have hlt : n % 10 < 10 := Nat.mod_lt _ (by omega)
        rw [char_toNat_ofNat (48 + n % 10) (by omega)]
        omega

theorem natRepr_digit (n : Nat) (c : Char) (hc : c ∈ natRepr n) :
    48 ≤ c.toNat ∧ c.toNat ≤ 57 := natReprAux_digit n n c hc

theorem natReprAux_ne_nil (fuel n : Nat) : natReprAux fuel n ≠ [] := by
  cases fuel with
  | zero => simp [natReprAux]
  | succ fuel =>
    simp only [natReprAux]
    split
    · simp
    · simp

theorem natRepr_ne_nil (n : Nat) : natRepr n ≠ [] := natReprAux_ne_nil n n

theorem digitsVal_append (l : List Char) (c : Char) :
    digitsVal (l ++ [c]) = digitsVal l * 10 + (c.toNat - 48) := by
  simp [digitsVal, List.foldl_append]

theorem natReprAux_val (fuel : Nat) : ∀ n, n ≤ fuel → digitsVal (natReprAux fuel n) = n := by
  induction fuel with
  | zero =>
    intro n hn
    have hz : n = 0 := by omega
    subst hz
    simp [natReprAux, digitsVal, char_toNat_ofNat 48 (by omega)]
  | succ fuel ih =>
    intro n hn
    simp only [natReprAux]
    split
    · rename_i hlt
      simp [digitsVal, char_toNat_ofNat (48 + n) (by omega)]
    · rename_i hge
      have h10 : 10 ≤ n := by omega
      have hdiv : n / 10 ≤ fuel := by
        have := Nat.div_lt_self (show 0 < n by omega) (show 1 < 10 by omega)
        omega
      rw [digitsVal_append, ih _ hdiv,
        char_toNat_ofNat (48 + n % 10) (by have := Nat.mod_lt n (show 0 < 10 by omega); omega)]
      have := Nat.div_add_mod n 10
      omega

theorem natRepr_val (n : Nat) : digitsVal (natRepr n) = n := natReprAux_val n n le_rfl

theorem natRepr_inj {a b : Nat} (h : natRepr a = natRepr b) : a = b := by
  have := natRepr_val a
  rw [h, natRepr_val] at this
  omega

theorem intRepr_inj {a b : Int} (h : intRepr a = intRepr b) : a = b := by
  cases a with
  | ofNat m =>
    cases b with
    | ofNat n =>
      simp only [intRepr] at h
      exact congrArg Int.ofNat (natRepr_inj h)
    | negSucc n =>
      exfalso
      simp only [intRepr] at h
      have hm : '-' ∈ natRepr m := by rw [h]; exact List.mem_cons_self _ _
      have hd := natRepr_digit m _ hm
      rw [show ('-').toNat = 45 from by decide] at hd
      omega
  | negSucc m =>
    cases b with
    | ofNat n =>
      exfalso
      simp only [intRepr] at h
      have hm : '-' ∈ natRepr n := by rw [← h]; exact List.mem_cons_self _ _
      have hd := natRepr_digit n _ hm
      rw [show ('-').toNat = 45 from by decide] at hd
      omega
    | negSucc n =>
      simp only [intRepr, List.cons.injEq, true_and] at h
      have hmn : m + 1 = n + 1 := natRepr_inj h
      have : m = n := by omega
      subst this
      rfl

theorem jsStrLt_asymm : ∀ x y, jsStrLt x y = true → jsStrLt y x = false := by
  intro x
  induction x with
  | nil => intro y h; cases y <;> simp_all [jsStrLt]
  | cons a as ih =>
    intro y h
    cases y with
    | nil => simp_all [jsStrLt]
    | cons b bs =>
      simp only [jsStrLt] at h ⊢
      split_ifs at h ⊢ <;> first | rfl | omega | exact ih bs h | simp_all

theorem jsStrLt_antisymm : ∀ x y, jsStrLt x y = false → jsStrLt y x = false → x = y := by
  intro x
  induction x with
  | nil => intro y h1 _; cases y <;> simp_all [jsStrLt]
  | cons a as ih =>
    intro y h1 h2
    cases y with
    | nil => simp_all [jsStrLt]
    | cons b bs =>
      simp only [jsStrLt] at h1 h2
      split_ifs at h1 h2 <;> try omega
      rename_i hab hba
      have hv : a.toNat = b.toNat := by omega
      have hchar : a = b := Char.ext (by apply UInt32.ext; exact hv)
      subst hchar
      exact congrArg (a :: ·) (ih bs h1 h2)

theorem canonicalPair_symm (a b : Int) : canonicalPair a b = canonicalPair b a := by
  unfold canonicalPair
  cases h1 : jsStrLt (intRepr b) (intRepr a) with
  | false =>
    cases h2 : jsStrLt (intRepr a) (intRepr b) with
    | false =>
      have heq : a = b := intRepr_inj (jsStrLt_antisymm _ _ h2 h1)
      subst heq
      rfl
    | true => simp
  | true =>
    cases h2 : jsStrLt (intRepr a) (intRepr b) with
    | false => simp
    | true =>
      exfalso
      have h3 := jsStrLt_asymm _ _ h1
      rw [h3] at h2
      cases h2

theorem canonicalPair_cases (a b : Int) :
    canonicalPair a b = (a, b) ∨ canonicalPair a b = (b, a) := by
  unfold canonicalPair
  split
  · exact Or.inr rfl
  · exact Or.inl rfl

theorem isJsSpace_iff_mem (c : Char) : isJsSpace c = true ↔ c ∈ jsWsChars := by
  simp [isJsSpace, List.contains]

theorem jsWs_not_digit : ∀ c ∈ jsWsChars, isDecDigit c = false := by decide

theorem digit_not_ws (c : Char) (h : isDecDigit c = true) : isJsSpace c = false := by
  cases hc : isJsSpace c with
  | false => rfl
  | true =>
    exfalso
    have hmem := (isJsSpace_iff_mem c).mp hc
    rw [jsWs_not_digit c hmem] at h
    cases h

theorem natRepr_isDec (n : Nat) : ∀ c ∈ natRepr n, isDecDigit c = true := by
  intro c hc
  have := natRepr_digit n c hc
  simp only [isDecDigit, Bool.and_eq_true, decide_eq_true_eq]
  omega

theorem takeWhile_append_stop (p : Char → Bool) (xs : List Char) (y : Char)
    (ys : List Char) (hxs : ∀ c ∈ xs, p c = true) (hy : p y = false) :
    (xs ++ y :: ys).takeWhile p = xs := by
  induction xs with
  | nil => simp [List.takeWhile_cons, hy]
  | cons a as ih =>
    have ha : p a = true := hxs a (List.mem_cons_self _ _)
    simp only [List.cons_append, List.takeWhile_cons, ha, if_true]
    rw [ih (fun c hc => hxs c (List.mem_cons_of_mem _ hc))]

theorem parseDigits_all (l : List Char) (hne : l ≠ [])
    (hall : ∀ c ∈ l, isDecDigit c = true) :
    parseDigits isDecDigit (fun c => c.toNat - 48) 10 l = some (digitsVal l) := by
  unfold parseDigits
  rw [List.takeWhile_eq_self_iff.mpr hall]
  cases l with
  | nil => exact absurd rfl hne
  | cons c cs => rfl

theorem parseDigits_dot (xs : List Char) (ds : List Char) (hne : xs ≠ [])
    (hall : ∀ c ∈ xs, isDecDigit c = true) :
    parseDigits isDecDigit (fun c => c.toNat - 48) 10 (xs ++ '.' :: ds) =
      some (digitsVal xs) := by
  unfold parseDigits
  rw [takeWhile_append_stop isDecDigit xs '.' ds hall (by decide)]
  cases xs with
  | nil => exact absurd rfl hne
  | cons c cs => rfl

theorem hasHexPre_digits (l : List Char) (hall : ∀ c ∈ l, isDecDigit c = true) :
    hasHexPre l = false := by
  cases l with
  | nil => rfl
  | cons c0 t =>
    cases t with
    | nil => rfl
    | cons c1 r =>
      have h1 := hall c1 (by simp)
      have hx : c1 ≠ 'x' := fun h => by subst h; exact absurd h1 (by decide)
      have hX : c1 ≠ 'X' := fun h => by subst h; exact absurd h1 (by decide)
      simp [hasHexPre, hx, hX]

theorem hasHexPre_digits_dot (xs ds : List Char)
    (hall : ∀ c ∈ xs, isDecDigit c = true) :
    hasHexPre (xs ++ '.' :: ds) = false := by
  cases xs with
  | nil =>
    cases ds with
    | nil => rfl
    | cons d r => simp [hasHexPre]
  | cons c0 t =>
    cases t with
    | nil => simp [hasHexPre]
    | cons c1 r =>
      have h1 := hall c1 (by simp)
      have hx : c1 ≠ 'x' := fun h => by subst h; exact absurd h1 (by decide)
      have hX : c1 ≠ 'X' := fun h => by subst h; exact absurd h1 (by decide)
      simp [hasHexPre, hx, hX]

theorem jsParseBody_nosign (l : List Char)
    (h : l.headD (Char.ofNat 0) ≠ '-' ∧ l.headD (Char.ofNat 0) ≠ '+') :
    jsParseBody l = l := by
  unfold jsParseBody
  rw [if_neg (by rintro (h1 | h1) <;> [exact h.1 h1; exact h.2 h1])]

theorem jsParseMag_digits (l : List Char) (hne : l ≠ [])
    (hall : ∀ c ∈ l, isDecDigit c = true) :
    jsParseMag l = some (digitsVal l) := by
  unfold jsParseMag
  rw [hasHexPre_digits _ hall]
  simp only [Bool.false_eq_true, if_false]
  exact parseDigits_all _ hne hall

theorem jsParseMag_dot (xs ds : List Char) (hne : xs ≠ [])
    (hall : ∀ c ∈ xs, isDecDigit c = true) :
    jsParseMag (xs ++ '.' :: ds) = some (digitsVal xs) := by
  unfold jsParseMag
  rw [hasHexPre_digits_dot _ _ hall]
  simp only [Bool.false_eq_true, if_false]
  exact parseDigits_dot _ _ hne hall

theorem digit_headD_signs (l : List Char) (hne : l ≠ [])
    (hall : ∀ c ∈ l, isDecDigit c = true) :
    l.headD (Char.ofNat 0) ≠ '-' ∧ l.headD (Char.ofNat 0) ≠ '+' := by
  cases l with
  | nil => exact absurd rfl hne
  | cons c cs =>
    have hc := hall c (List.mem_cons_self _ _)
    refine ⟨fun h => ?_, fun h => ?_⟩ <;>
      (rw [List.headD_cons] at h; subst h; exact absurd hc (by decide))

theorem jsParseIntTrimmed_digits (l : List Char) (hne : l ≠ [])
    (hall : ∀ c ∈ l, isDecDigit c = true) :
    jsParseIntTrimmed l = some ((digitsVal l : Nat) : Int) := by
  have hsigns := digit_headD_signs l hne hall
  unfold jsParseIntTrimmed
  rw [jsParseBody_nosign l hsigns, jsParseMag_digits l hne hall]
  simp only [Option.map_some']
  rw [if_neg hsigns.1]

theorem jsParseIntTrimmed_neg_digits (l : List Char) (hne : l ≠ [])
    (hall : ∀ c ∈ l, isDecDigit c = true) :
    jsParseIntTrimmed ('-' :: l) = some (-((digitsVal l : Nat) : Int)) := by
  unfold jsParseIntTrimmed jsParseBody
  simp [jsParseMag_digits l hne hall]

theorem headD_append_ne_nil (xs ys : List Char) (hne : xs ≠ []) (d : Char) :
    (xs ++ ys).headD d = xs.headD d := by
  cases xs with
  | nil => exact absurd rfl hne
  | cons c cs => rfl

theorem jsParseIntTrimmed_digits_dot (xs ds : List Char) (hne : xs ≠ [])
    (hall : ∀ c ∈ xs, isDecDigit c = true) :
    jsParseIntTrimmed (xs ++ '.' :: ds) = some ((digitsVal xs : Nat) : Int) := by
  have hsigns := digit_headD_signs xs hne hall
  have hsigns2 : (xs ++ '.' :: ds).headD (Char.ofNat 0) ≠ '-' ∧
      (xs ++ '.' :: ds).headD (Char.ofNat 0) ≠ '+' := by
    rw [headD_append_ne_nil _ _ hne]
    exact hsigns
  unfold jsParseIntTrimmed
  rw [jsParseBody_nosign _ hsigns2, jsParseMag_dot _ _ hne hall]
  simp only [Option.map_some']
  rw [if_neg hsigns2.1]

theorem jsParseIntTrimmed_neg_dot (xs ds : List Char) (hne : xs ≠ [])
    (hall : ∀ c ∈ xs, isDecDigit c = true) :
    jsParseIntTrimmed ('-' :: (xs ++ '.' :: ds)) =
      some (-((digitsVal xs : Nat) : Int)) := by
  unfold jsParseIntTrimmed jsParseBody
  simp [jsParseMag_dot _ _ hne hall]

theorem dropWhile_of_head (p : Char → Bool) (l : List Char)
    (h : ∀ c, l.head? = some c → p c = false) : l.dropWhile p = l := by
  cases l with
  | nil => rfl
  | cons a t => simp [List.dropWhile_cons, h a rfl]

theorem parse_natRepr (n : Nat) : jsParseIntStr (natRepr n) = some (n : Int) := by
  unfold jsParseIntStr
  rw [dropWhile_of_head _ _ (by
    intro c hc
    exact digit_not_ws c (natRepr_isDec n c (List.mem_of_mem_head? hc)))]
  rw [jsParseIntTrimmed_digits _ (natRepr_ne_nil n) (natRepr_isDec n), natRepr_val]

theorem parse_intRepr (i : Int) : jsParseIntStr (intRepr i) = some i := by
  cases i with
  | ofNat n => exact parse_natRepr n
  | negSucc n =>
    unfold jsParseIntStr intRepr
    rw [dropWhile_of_head _ _ (by
      intro c hc
      simp only [List.head?_cons, Option.some.injEq] at hc
      subst hc
      decide)]
    rw [jsParseIntTrimmed_neg_digits _ (natRepr_ne_nil (n + 1)) (natRepr_isDec (n + 1)),
      natRepr_val]
    simp [Int.negSucc_eq]

theorem parse_vnum (n : Int) : jsParseInt (.vnum n) = some n := parse_intRepr n

theorem parse_vfrac (neg : Bool) (ip : Nat) (ds : List Char) :
    jsParseInt (.vfrac neg ip ds) = some (if neg then -(ip : Int) else (ip : Int)) := by
  cases neg with
  | false =>
    simp only [jsToString, jsParseInt, List.nil_append, if_false, Bool.false_eq_true]
    unfold jsParseIntStr
    rw [dropWhile_of_head _ _ (by
      intro c hc
      rw [List.head?_append_of_ne_nil _ (natRepr_ne_nil ip)] at hc
      exact digit_not_ws c (natRepr_isDec ip c (List.mem_of_mem_head? hc)))]
    rw [jsParseIntTrimmed_digits_dot _ _ (natRepr_ne_nil ip) (natRepr_isDec ip),
      natRepr_val]
  | true =>
    simp only [jsToString, jsParseInt, if_true, List.singleton_append, List.cons_append,
      List.nil_append]
    unfold jsParseIntStr
    have hd : ∀ c, ('-' :: (natRepr ip ++ '.' :: ds)).head? = some c →
        isJsSpace c = false := by
      intro c hc
      simp only [List.head?_cons, Option.some.injEq] at hc
      subst hc
      decide
    rw [dropWhile_of_head _ _ hd]
    rw [jsParseIntTrimmed_neg_dot _ _ (natRepr_ne_nil ip) (natRepr_isDec ip), natRepr_val]

/-! Helper lemmas: whitespace trimming and collapsing. -/

theorem collapseWs_mem : ∀ (l : List Char) (c : Char), c ∈ collapseWs l →
    (c ∈ l ∧ isJsSpace c = false) ∨ c = ' ' := by
  intro l
  induction l with
  | nil => intro c hc; simp [collapseWs] at hc
  | cons a t ih =>
    intro c hc
    cases t with
    | nil =>
      simp only [collapseWs] at hc
      split at hc
      · simp only [List.mem_singleton] at hc
        exact Or.inr hc
      · rename_i hws
        simp only [List.mem_singleton] at hc
        subst hc
        exact Or.inl ⟨List.mem_cons_self _ _, by simpa using hws⟩
    | cons b rest =>
      simp only [collapseWs] at hc
      split at hc
      · rcases ih c hc with ⟨hm, hw⟩ | hsp
        · exact Or.inl ⟨List.mem_cons_of_mem _ hm, hw⟩
        · exact Or.inr hsp
      · rename_i hcond
        rcases List.mem_cons.mp hc with hhd | htl
        · subst hhd
          split
          · exact Or.inr rfl
          · rename_i hws
            exact Or.inl ⟨List.mem_cons_self _ _, by simpa using hws⟩
        · rcases ih c htl with ⟨hm, hw⟩ | hsp
          · exact Or.inl ⟨List.mem_cons_of_mem _ hm, hw⟩
          · exact Or.inr hsp

theorem collapseWs_ne_nil : ∀ (a : Char) (t : List Char), collapseWs (a :: t) ≠ [] := by
  intro a t
  induction t generalizing a with
  | nil => simp only [collapseWs]; split <;> simp
  | cons b rest ih =>
    simp only [collapseWs]
    split
    · exact ih b
    · simp

theorem collapseWs_head (a : Char) (t : List Char) (ha : isJsSpace a = false) :
    (collapseWs (a :: t)).head? = some a := by
  cases t with
  | nil => simp [collapseWs, ha]
  | cons b rest => simp [collapseWs, ha]

theorem collapseWs_last : ∀ (l : List Char) (c : Char), l.getLast? = some c →
    isJsSpace c = false → (collapseWs l).getLast? = some c := by
  intro l
  induction l with
  | nil => intro c hc _; simp at hc
  | cons a t ih =>
    intro c hc hws
    cases t with
    | nil =>
      simp only [List.getLast?_singleton, Option.some.injEq] at hc
      subst hc
      simp [collapseWs, hws]
    | cons b rest =>
      rw [List.getLast?_cons_cons] at hc
      simp only [collapseWs]
      split
      · exact ih c hc hws
      · have hrec := ih c hc hws
        cases h2 : collapseWs (b :: rest) with
        | nil => exact absurd h2 (collapseWs_ne_nil b rest)
        | cons x xs =>
          rw [h2] at hrec
          rw [List.getLast?_cons_cons]
          exact hrec

theorem collapseWs_noWsPair : ∀ l : List Char, noWsPair (collapseWs l) = true := by
  intro l
  induction l with
  | nil => rfl
  | cons a t ih =>
    cases t with
    | nil =>
      simp only [collapseWs]
      split <;> rfl
    | cons b rest =>
      simp only [collapseWs]
      split
      · exact ih
      · rename_i hcond
        cases h2 : collapseWs (b :: rest) with
        | nil => exact absurd h2 (collapseWs_ne_nil b rest)
        | cons x xs =>
          rw [h2] at ih
          have hd : noWsPair ((if isJsSpace a then ' ' else a) :: x :: xs) =
              (!(isJsSpace (if isJsSpace a then ' ' else a) && isJsSpace x) &&
                noWsPair (x :: xs)) := rfl
          rw [hd, ih, Bool.and_true]
          cases hwa : isJsSpace a with
          | false => simp [hwa]
          | true =>
            have hwb : isJsSpace b = false := by
              cases hwb : isJsSpace b with
              | false => rfl
              | true => exact absurd (by simp [hwa, hwb]) hcond
            have hx : x = b := by
              have hh := collapseWs_head b rest hwb
              rw [h2] at hh
              simp only [List.head?_cons, Option.some.injEq] at hh
              exact hh
            subst hx
            simp [hwa, hwb]

theorem collapseWs_allWs (l : List Char) : allWsIsSpace (collapseWs l) = true := by
  rw [allWsIsSpace, List.all_eq_true]
  intro c hc
  rcases collapseWs_mem l c hc with ⟨_, hw⟩ | hsp
  · simp [hw]
  · subst hsp
    simp

theorem collapseWs_fix : ∀ l : List Char, noWsPair l = true → allWsIsSpace l = true →
    collapseWs l = l := by
  intro l
  induction l with
  | nil => intro _ _; rfl
  | cons a t ih =>
    intro hnp haw
    cases t with
    | nil =>
      simp only [collapseWs]
      split
      · rename_i hws
        have : a = ' ' := by
          have := (List.all_eq_true.mp haw) a (List.mem_cons_self _ _)
          simp [hws] at this
          exact this
        rw [this]
      · rfl
    | cons b rest =>
      have hcond : ¬(isJsSpace a && isJsSpace b) = true := by
        simp only [noWsPair, Bool.and_eq_true] at hnp
        have h1 := hnp.1
        simp only [Bool.not_eq_eq_eq_not, Bool.not_true] at h1
        simp [h1]
      simp only [collapseWs]
      rw [if_neg hcond]
      have htl : noWsPair (b :: rest) = true := by
        simp only [noWsPair, Bool.and_eq_true] at hnp
        exact hnp.2
      have hawtl : allWsIsSpace (b :: rest) = true := by
        rw [allWsIsSpace, List.all_eq_true]
        intro c hc
        exact (List.all_eq_true.mp haw) c (List.mem_cons_of_mem _ hc)
      rw [ih htl hawtl]
      cases hwa : isJsSpace a with
      | false => simp [hwa]
      | true =>
        have : a = ' ' := by
          have := (List.all_eq_true.mp haw) a (List.mem_cons_self _ _)
          simp [hwa] at this
          exact this
        rw [if_pos rfl, this]

theorem dropWhile_ws_head (l : List Char) (c : Char)
    (hc : (l.dropWhile isJsSpace).head? = some c) : isJsSpace c = false := by
  have h := List.head?_dropWhile_not isJsSpace l
  rw [hc] at h
  exact h

theorem dropWhile_getLast (p : Char → Bool) : ∀ l : List Char,
    l.dropWhile p ≠ [] → (l.dropWhile p).getLast? = l.getLast? := by
  intro l
  induction l with
  | nil => intro h; exact absurd rfl h
  | cons a t ih =>
    intro hne
    rw [List.dropWhile_cons]
    rw [List.dropWhile_cons] at hne
    split
    · rename_i hp
      rw [if_pos hp] at hne
      have htne : t ≠ [] := by
        intro h
        subst h
        exact hne rfl
      rw [ih hne]
      cases t with
      | nil => exact absurd rfl htne
      | cons b r => rw [List.getLast?_cons_cons]
    · rfl

theorem dropTrailingWs_head (y : List Char) (c : Char)
    (h : (dropTrailingWs y).head? = some c) : y.head? = some c := by
  unfold dropTrailingWs at h
  have hzne : y.reverse.dropWhile isJsSpace ≠ [] := by
    intro hz
    rw [hz] at h
    simp at h
  rw [List.head?_reverse] at h
  rw [dropWhile_getLast isJsSpace y.reverse hzne, List.getLast?_reverse] at h
  exact h

theorem jsTrim_head (x : List Char) (c : Char) (h : (jsTrim x).head? = some c) :
    isJsSpace c = false := by
  unfold jsTrim at h
  exact dropWhile_ws_head x c (dropTrailingWs_head _ c h)

theorem jsTrim_last (x : List Char) (c : Char) (h : (jsTrim x).getLast? = some c) :
    isJsSpace c = false := by
  unfold jsTrim dropTrailingWs at h
  rw [List.getLast?_reverse] at h
  exact dropWhile_ws_head _ c h

theorem jsTrim_subset (x : List Char) (c : Char) (h : c ∈ jsTrim x) : c ∈ x := by
  unfold jsTrim dropTrailingWs at h
  rw [List.mem_reverse] at h
  have h2 := (List.dropWhile_sublist isJsSpace).subset h
  rw [List.mem_reverse] at h2
  exact (List.dropWhile_sublist isJsSpace).subset h2

theorem removeSpaces_mem (x : List Char) (c : Char) (h : c ∈ removeSpaces x) :
    (c ∈ x ∧ isJsSpace c = false) ∨ c = ' ' := by
  unfold removeSpaces at h
  rcases collapseWs_mem _ c h with ⟨hm, hw⟩ | hsp
  · exact Or.inl ⟨jsTrim_subset x c hm, hw⟩
  · exact Or.inr hsp

theorem removeSpaces_head (x : List Char) (c : Char)
    (h : (removeSpaces x).head? = some c) : isJsSpace c = false := by
  unfold removeSpaces at h
  cases ht : jsTrim x with
  | nil => rw [ht] at h; simp [collapseWs] at h
  | cons a t =>
    have ha : isJsSpace a = false := jsTrim_head x a (by rw [ht]; rfl)
    rw [ht, collapseWs_head a t ha] at h
    cases h
    exact ha

theorem removeSpaces_last (x : List Char) (c : Char)
    (h : (removeSpaces x).getLast? = some c) : isJsSpace c = false := by
  unfold removeSpaces at h
  cases hg : (jsTrim x).getLast? with
  | none =>
    rw [List.getLast?_eq_none_iff] at hg
    rw [hg] at h
    simp [collapseWs] at h
  | some d =>
    have hd : isJsSpace d = false := jsTrim_last x d hg
    rw [collapseWs_last (jsTrim x) d hg hd] at h
    cases h
    exact hd

theorem removeSpaces_noWsPair (x : List Char) : noWsPair (removeSpaces x) = true :=
  collapseWs_noWsPair (jsTrim x)

theorem removeSpaces_allWs (x : List Char) : allWsIsSpace (removeSpaces x) = true :=
  collapseWs_allWs (jsTrim x)

theorem jsTrim_of_canon (l : List Char)
    (hh : ∀ c, l.head? = some c → isJsSpace c = false)
    (hl : ∀ c, l.getLast? = some c → isJsSpace c = false) : jsTrim l = l := by
  unfold jsTrim
  rw [dropWhile_of_head _ _ hh]
  unfold dropTrailingWs
  rw [dropWhile_of_head _ _ (by
    intro c hc
    rw [List.head?_reverse] at hc
    exact hl c hc)]
  exact List.reverse_reverse l

theorem removeSpaces_of_canon (l : List Char)
    (hh : ∀ c, l.head? = some c → isJsSpace c = false)
    (hl : ∀ c, l.getLast? = some c → isJsSpace c = false)
    (hnp : noWsPair l = true) (haw : allWsIsSpace l = true) : removeSpaces l = l := by
  unfold removeSpaces
  rw [jsTrim_of_canon l hh hl]
  exact collapseWs_fix l hnp haw

theorem removeSpaces_idem (x : List Char) :
    removeSpaces (removeSpaces x) = removeSpaces x :=
  removeSpaces_of_canon _ (removeSpaces_head x) (removeSpaces_last x)
    (removeSpaces_noWsPair x) (removeSpaces_allWs x)

theorem jsTrim_idem (x : List Char) : jsTrim (jsTrim x) = jsTrim x :=
  jsTrim_of_canon _ (jsTrim_head x) (jsTrim_last x)

theorem removeSpaces_jsTrim (x : List Char) :
    removeSpaces (jsTrim x) = removeSpaces x := by
  unfold removeSpaces
  rw [jsTrim_idem]

/-! Helper lemmas: variant table and character filtering. -/

theorem lookup_mem : ∀ (l : List (Char × Char)) (a v : Char),
    l.lookup a = some v → (a, v) ∈ l := by
  intro l
  induction l with
  | nil => intro a v h; cases h
  | cons p rest ih =>
    intro a v h
    rw [show p = (p.1, p.2) from rfl, List.lookup_cons] at h
    cases hbeq : (a == p.1) with
    | true =>
      rw [hbeq] at h
      cases h
      have : a = p.1 := eq_of_beq hbeq
      subst this
      exact List.mem_cons_self _ _
    | false =>
      rw [hbeq] at h
      exact List.mem_cons_of_mem _ (ih a v h)

theorem variant_targets : ∀ p ∈ arabicCharVariants,
    p.2 = 'ا' ∨ p.2 = 'ب' ∨ p.2 = 'ه' ∨ p.2 = 'ي' := by decide

theorem normVariant_cases (d : Char) : normVariant d = d ∨
    (normVariant d = 'ا' ∨ normVariant d = 'ب' ∨ normVariant d = 'ه' ∨
      normVariant d = 'ي') := by
  unfold normVariant
  cases h : arabicCharVariants.lookup d with
  | none => exact Or.inl rfl
  | some v =>
    right
    have := variant_targets _ (lookup_mem _ _ _ h)
    exact this

theorem normVariant_idem (d : Char) : normVariant (normVariant d) = normVariant d := by
  rcases normVariant_cases d with h | h | h | h | h
  · conv_lhs => rw [h]
  · rw [h]; decide
  · rw [h]; decide
  · rw [h]; decide
  · rw [h]; decide

theorem normVariant_not_diacritic (d : Char) (hd : isDiacritic d = false) :
    isDiacritic (normVariant d) = false := by
  rcases normVariant_cases d with h | h | h | h | h <;> rw [h]
  · exact hd
  · decide
  · decide
  · decide
  · decide

theorem stepFilter_mem1 : ∀ (text : List Char) (c : Char),
    c ∈ (stepFilter false text).1 →
    c = ' ' ∨ (c ∈ text ∧ isArabicUrduChar c = true) := by
  intro text
  induction text with
  | nil => intro c hc; cases hc
  | cons a rest ih =>
    intro c hc
    simp only [stepFilter] at hc
    split at hc
    · rename_i hsp
      simp only [Bool.false_eq_true, if_false, List.mem_cons] at hc
      rcases hc with hc | hc
      · subst hc; exact Or.inl hsp
      · rcases ih c hc with h | ⟨hm, ha⟩
        · exact Or.inl h
        · exact Or.inr ⟨List.mem_cons_of_mem _ hm, ha⟩
    · split at hc
      · rename_i harab
        simp only [List.mem_cons] at hc
        rcases hc with hc | hc
        · subst hc; exact Or.inr ⟨List.mem_cons_self _ _, harab⟩
        · rcases ih c hc with h | ⟨hm, ha⟩
          · exact Or.inl h
          · exact Or.inr ⟨List.mem_cons_of_mem _ hm, ha⟩
      · rcases ih c hc with h | ⟨hm, ha⟩
        · exact Or.inl h
        · exact Or.inr ⟨List.mem_cons_of_mem _ hm, ha⟩

theorem stepFilter_id : ∀ text : List Char,
    (∀ c ∈ text, c = ' ' ∨ isArabicUrduChar c = true) →
    stepFilter false text = (text, []) := by
  intro text
  induction text with
  | nil => intro _; rfl
  | cons a rest ih =>
    intro hall
    have hrest := ih (fun c hc => hall c (List.mem_cons_of_mem _ hc))
    by_cases hsp : a = ' '
    · subst hsp
      simp [stepFilter, hrest]
    · rcases hall a (List.mem_cons_self _ _) with h | harab
      · exact absurd h hsp
      · simp [stepFilter, hrest, hsp, harab]

theorem list_map_id (f : Char → Char) : ∀ l : List Char,
    (∀ c ∈ l, f c = c) → l.map f = l := by
  intro l
  induction l with
  | nil => intro _; rfl
  | cons a rest ih =>
    intro hall
    simp only [List.map_cons, hall a (List.mem_cons_self _ _),
      ih (fun c hc => hall c (List.mem_cons_of_mem _ hc))]

theorem normStage2_nodia (t1 : List Char) :
    ∀ ch ∈ normStage2 t1, isDiacritic ch = false := by
  intro ch hch
  unfold normStage2 at hch
  split at hch
  · have := (List.mem_filter.mp hch).2
    simpa using this
  · rename_i hany
    have hfa : t1.any isDiacritic = false := by simpa using hany
    have := List.any_eq_false.mp hfa ch hch
    simpa using this

theorem normStage3_nodia (t1 : List Char) :
    ∀ ch ∈ normStage3 t1, isDiacritic ch = false := by
  intro ch hch
  unfold normStage3 at hch
  rcases List.mem_map.mp hch with ⟨d, hd, hde⟩
  subst hde
  exact normVariant_not_diacritic d (normStage2_nodia t1 d hd)

theorem normStage3_varfix (t1 : List Char) :
    ∀ ch ∈ normStage3 t1, normVariant ch = ch := by
  intro ch hch
  unfold normStage3 at hch
  rcases List.mem_map.mp hch with ⟨d, _, hde⟩
  subst hde
  exact normVariant_idem d

theorem processNameInput_success_shape (x : List Char)
    (hs : (processNameInput x).2.success = true) :
    (processNameInput x).1 = normCleaned false (removeSpaces x) ∧
    (processNameInput x).2.cleaned = normCleaned false (removeSpaces x) ∧
    normCleaned false (removeSpaces x) ≠ [] := by
  by_cases h1 : removeSpaces x = []
  · exfalso
    unfold processNameInput procBody at hs
    rw [if_pos h1] at hs
    cases hs
  · by_cases h2 : normCleaned false (removeSpaces x) = []
    · exfalso
      unfold processNameInput procBody at hs
      rw [if_neg h1, if_pos h2] at hs
      cases hs
    · unfold processNameInput procBody
      rw [if_neg h1, if_neg h2]
      exact ⟨rfl, rfl, h2⟩

theorem cleaned_chars (x : List Char) :
    ∀ ch ∈ normCleaned false (removeSpaces x), ch = ' ' ∨
      (isArabicUrduChar ch = true ∧ isDiacritic ch = false ∧ normVariant ch = ch) := by
  intro ch hch
  unfold normCleaned at hch
  rcases removeSpaces_mem _ ch hch with ⟨hm, _⟩ | hsp
  · rcases stepFilter_mem1 _ ch hm with hsp | ⟨hm3, ha⟩
    · exact Or.inl hsp
    · exact Or.inr ⟨ha, normStage3_nodia _ ch hm3, normStage3_varfix _ ch hm3⟩
  · exact Or.inl hsp

/-- A string in the normal form produced by a successful normalization
passes through every stage of `processNameInput` unchanged. -/
theorem nf_pass (c : List Char) (hne : c ≠ [])
    (hch : ∀ ch ∈ c, ch = ' ' ∨
      (isArabicUrduChar ch = true ∧ isDiacritic ch = false ∧ normVariant ch = ch))
    (hfix : removeSpaces c = c) :
    processNameInput c = (c,
      { success := true, original := c, cleaned := c, length := c.length,
        warnings := [], errors := [], hasDiacritics := false,
        charCount := c.length }) := by
  have hdia : ∀ ch ∈ c, isDiacritic ch = false := by
    intro ch h
    rcases hch ch h with hsp | ⟨_, hd, _⟩
    · subst hsp; decide
    · exact hd
  have hany : c.any isDiacritic = false :=
    List.any_eq_false.mpr (fun ch h => by rw [hdia ch h]; simp)
  have hstage2 : normStage2 c = c := by
    unfold normStage2
    rw [hany]
    simp
  have hvar : ∀ ch ∈ c, normVariant ch = ch := by
    intro ch h
    rcases hch ch h with hsp | ⟨_, _, hv⟩
    · subst hsp; decide
    · exact hv
  have hstage3 : normStage3 c = c := by
    unfold normStage3
    rw [hstage2]
    exact list_map_id _ _ hvar
  have harab : ∀ ch ∈ c, ch = ' ' ∨ isArabicUrduChar ch = true := by
    intro ch h
    rcases hch ch h with hsp | ⟨ha, _, _⟩
    · exact Or.inl hsp
    · exact Or.inr ha
  have hsf : stepFilter false c = (c, []) := stepFilter_id c harab
  have hclean : normCleaned false c = c := by
    unfold normCleaned
    rw [hstage3, hsf]
    exact hfix
  have hwarns : normWarns c = [] := by
    unfold normWarns
    rw [hany, hstage3, hstage2]
    simp
  have herrs : normErrs1 false c = [] := by
    unfold normErrs1
    rw [hstage3, hsf]
    simp
  unfold processNameInput procBody
  rw [hfix, hclean, if_neg hne, if_neg hne, hwarns, herrs, hany]

/-- C6: running the normalizer again on the cleaned output of a
successful normalization returns the same cleaned string:
`normalize(normalize(x).cleaned).cleaned == normalize(x).cleaned`. -/
theorem c6_normalizer_idempotent (x : List Char)
    (hs : (processNameInput x).2.success = true) :
    (processNameInput ((processNameInput x).2.cleaned)).2.cleaned =
      (processNameInput x).2.cleaned := by
  obtain ⟨_, h2, hne⟩ := processNameInput_success_shape x hs
  rw [h2]
  have hfix : removeSpaces (normCleaned false (removeSpaces x)) =
      normCleaned false (removeSpaces x) := by
    unfold normCleaned
    exact removeSpaces_idem _
  rw [nf_pass (normCleaned false (removeSpaces x)) hne (cleaned_chars x) hfix]

theorem calcLoop_inv (l : DataLoader) : ∀ (chars : List Char) (pos : Nat)
    (st st2 : CalcScan), calcLoop l chars pos st = .ok st2 →
    st.total = (st.breakdown.map InnerRecord.value).sum →
    st.count = st.breakdown.length →
    st2.total = (st2.breakdown.map InnerRecord.value).sum ∧
      st2.count = st2.breakdown.length := by
  intro chars
  induction chars with
  | nil =>
    intro pos st st2 h h1 h2
    simp only [calcLoop] at h
    cases h
    exact ⟨h1, h2⟩
  | cons c rest ih =>
    intro pos st st2 h h1 h2
    simp only [calcLoop] at h
    cases hg : getLetterValue l c with
    | error e => rw [hg] at h; cases h
    | ok lv =>
      rw [hg] at h
      cases lv with
      | none =>
        dsimp only at h
        refine ih (pos + 1)
          { total := st.total, count := st.count, breakdown := st.breakdown,
            warnings := st.warnings ++ [unmappedWarning c pos] } st2 h ?_ ?_
        · exact h1
        · exact h2
      | some v =>
        dsimp only at h
        refine ih _ _ _ h ?_ ?_
        · simp only [List.map_append, List.sum_append, List.map_cons, List.map_nil,
            List.sum_cons, List.sum_nil]
          omega
        · simp [h2]

theorem calcLoop_chars (l : DataLoader) : ∀ (chars : List Char) (pos : Nat)
    (st st2 : CalcScan), calcLoop l chars pos st = .ok st2 →
    st2.breakdown.map InnerRecord.character =
      st.breakdown.map InnerRecord.character ++ chars.filter (isMapped l) := by
  intro chars
  induction chars with
  | nil =>
    intro pos st st2 h
    simp only [calcLoop] at h
    cases h
    simp
  | cons c rest ih =>
    intro pos st st2 h
    simp only [calcLoop] at h
    cases hg : getLetterValue l c with
    | error e => rw [hg] at h; cases h
    | ok lv =>
      rw [hg] at h
      cases lv with
      | none =>
        dsimp only at h
        have hnm : isMapped l c = false := by unfold isMapped; rw [hg]
        rw [List.filter_cons, hnm]
        simp only [Bool.false_eq_true, if_false]
        exact ih (pos + 1)
          { total := st.total, count := st.count, breakdown := st.breakdown,
            warnings := st.warnings ++ [unmappedWarning c pos] } st2 h
      | some v =>
        dsimp only at h
        have hm : isMapped l c = true := by unfold isMapped; rw [hg]
        rw [List.filter_cons, hm]
        simp only [if_true]
        rw [ih _ _ _ h]
        simp

/-- C4: Sum invariant of the Value Calculator — for every input on which
`calculateAbjadValue` succeeds, `totalValue` equals the sum of the
`value` fields of the `characterBreakdown` records and `charCount`
equals the breakdown length. -/
theorem c4_sum_invariant (l : DataLoader) (s : List Char) (r : CalcResult)
    (h : calculateAbjadValue l s = .ok r) (hs : r.success = true) :
    r.totalValue = (r.characterBreakdown.map InnerRecord.value).sum ∧
    r.charCount = r.characterBreakdown.length := by
  by_cases hemp : s = []
  · unfold calculateAbjadValue at h
    rw [if_pos hemp] at h
    injection h with hr
    subst hr
    cases hs
  · unfold calculateAbjadValue at h
    rw [if_neg hemp] at h
    cases hcl : calcLoop l s 0 { total := 0, count := 0, breakdown := [], warnings := [] } with
    | error e => rw [hcl] at h; cases h
    | ok st =>
      rw [hcl] at h
      dsimp only at h
      have hinv := calcLoop_inv l s 0 _ st hcl (by simp) (by simp)
      by_cases hcnt : st.count = 0
      · rw [if_pos hcnt] at h
        injection h with hr
        subst hr
        cases hs
      · rw [if_neg hcnt] at h
        injection h with hr
        subst hr
        exact hinv

theorem mapIdxFrom_length (f : Nat → α → β) : ∀ (i : Nat) (l : List α),
    (mapIdxFrom f i l).length = l.length := by
  intro i l
  induction l generalizing i with
  | nil => rfl
  | cons a as ih => simp [mapIdxFrom, ih]

theorem mapIdxFrom_get (f : Nat → α → β) : ∀ (l : List α) (i j : Nat)
    (hj : j < l.length) (hj2 : j < (mapIdxFrom f i l).length),
    (mapIdxFrom f i l).get ⟨j, hj2⟩ = f (i + j) (l.get ⟨j, hj⟩) := by
  intro l
  induction l with
  | nil => intro i j hj _; exact absurd hj (by simp)
  | cons a as ih =>
    intro i j hj hj2
    cases j with
    | zero => simp [mapIdxFrom]
    | succ k =>
      have hk : k < as.length := by simpa using hj
      have hk2 : k < (mapIdxFrom f (i + 1) as).length := by
        rw [mapIdxFrom_length]
        exact hk
      have hstep : (mapIdxFrom f i (a :: as)).get ⟨k + 1, hj2⟩ =
          (mapIdxFrom f (i + 1) as).get ⟨k, hk2⟩ := rfl
      rw [hstep, ih (i + 1) k hk hk2]
      have : i + 1 + k = i + (k + 1) := by omega
      rw [this]
      rfl

theorem mapIdxFrom_pub_chars : ∀ (i : Nat) (l : List InnerRecord),
    (mapIdxFrom pubRecOf i l).map PublicRecord.character =
      l.map InnerRecord.character := by
  intro i l
  induction l generalizing i with
  | nil => rfl
  | cons a as ih => simp [mapIdxFrom, pubRecOf, ih]

theorem calculateAbjadValue_chars (l : DataLoader) (s : List Char) (cr : CalcResult)
    (h : calculateAbjadValue l s = .ok cr) :
    cr.characterBreakdown.map InnerRecord.character = s.filter (isMapped l) := by
  by_cases hemp : s = []
  · subst hemp
    unfold calculateAbjadValue at h
    rw [if_pos rfl] at h
    injection h with hr
    subst hr
    simp
  · unfold calculateAbjadValue at h
    rw [if_neg hemp] at h
    cases hcl : calcLoop l s 0 { total := 0, count := 0, breakdown := [], warnings := [] } with
    | error e => rw [hcl] at h; cases h
    | ok st =>
      rw [hcl] at h
      dsimp only at h
      have hch := calcLoop_chars l s 0 _ st hcl
      simp only [List.map_nil, List.nil_append] at hch
      by_cases hcnt : st.count = 0
      · rw [if_pos hcnt] at h
        injection h with hr
        subst hr
        exact hch
      · rw [if_neg hcnt] at h
        injection h with hr
        subst hr
        exact hch

theorem calculateAbjadValue_inputName (l : DataLoader) (s : List Char) (cr : CalcResult)
    (h : calculateAbjadValue l s = .ok cr) : cr.inputName = s := by
  by_cases hemp : s = []
  · subst hemp
    unfold calculateAbjadValue at h
    rw [if_pos rfl] at h
    injection h with hr
    subst hr
    rfl
  · unfold calculateAbjadValue at h
    rw [if_neg hemp] at h
    cases hcl : calcLoop l s 0 { total := 0, count := 0, breakdown := [], warnings := [] } with
    | error e => rw [hcl] at h; cases h
    | ok st =>
      rw [hcl] at h
      dsimp only at h
      by_cases hcnt : st.count = 0
      · rw [if_pos hcnt] at h
        injection h with hr
        subst hr
        rfl
      · rw [if_neg hcnt] at h
        injection h with hr
        subst hr
        rfl

theorem calculateAbjad_success_shape (l : DataLoader) (v : JSVal) (tv : Int)
    (inp cl : List Char) (bk : List PublicRecord) (cc : Nat)
    (h : calculateAbjad l v = .success tv inp cl bk cc) :
    ∃ (s : List Char) (cr : CalcResult),
      v = .vstr s ∧
      calculateAbjadValue l (processNameInput s).1 = .ok cr ∧
      cr.success = true ∧
      bk = mapIdxFrom pubRecOf 0 cr.characterBreakdown ∧
      cl = cr.inputName := by
  cases v with
  | vstr s =>
    unfold calculateAbjad calculateAbjadTry processNameInputJS at h
    dsimp only at h
    rcases hps : processNameInput s with ⟨cleaned, status⟩
    rw [hps] at h
    dsimp only at h
    cases hss : status.success with
    | false =>
      rw [if_pos hss] at h
      dsimp only at h
      cases h
    | true =>
      rw [if_neg (by simp [hss])] at h
      cases hcv : calculateAbjadValue l cleaned with
      | error e =>
        rw [hcv] at h
        dsimp only at h
        cases h
      | ok cr =>
        rw [hcv] at h
        dsimp only at h
        cases hcs : cr.success with
        | false =>
          rw [if_pos hcs] at h
          dsimp only at h
          cases h
        | true =>
          rw [if_neg (by simp [hcs])] at h
          dsimp only at h
          injection h with h1 h2 h3 h4 h5
          refine ⟨s, cr, rfl, ?_, hcs, h4.symm, h3.symm⟩
          rw [hps]
          exact hcv
  | vnum n => simp [calculateAbjad, calculateAbjadTry, processNameInputJS] at h
  | vfrac neg ip ds => simp [calculateAbjad, calculateAbjadTry, processNameInputJS] at h
  | vnull => simp [calculateAbjad, calculateAbjadTry, processNameInputJS] at h
  | vundef => simp [calculateAbjad, calculateAbjadTry, processNameInputJS] at h
  | vbool b => simp [calculateAbjad, calculateAbjadTry, processNameInputJS] at h

/-- C7: in every successful public calculation the `i`-th breakdown
record carries `position = i + 1` — a 1-based ordinal counted only
along the emitted records — and the breakdown characters are exactly
the table-mapped characters of the cleaned name in order, so skipped
characters (unmapped letters and spaces) consume no position. -/
theorem c7_breakdown_positions (l : DataLoader) (v : JSVal) (tv : Int)
    (inp cl : List Char) (bk : List PublicRecord) (cc : Nat)
    (h : calculateAbjad l v = .success tv inp cl bk cc) :
    (∀ j (hj : j < bk.length), (bk.get ⟨j, hj⟩).position = j + 1) ∧
    bk.map PublicRecord.character = cl.filter (isMapped l) := by
  obtain ⟨s, cr, _, hcv, _, hbk, hcl⟩ := calculateAbjad_success_shape l v tv inp cl bk cc h
  subst hbk
  subst hcl
  constructor
  · intro j hj
    have hj2 : j < cr.characterBreakdown.length := by
      rw [mapIdxFrom_length] at hj
      exact hj
    rw [mapIdxFrom_get pubRecOf cr.characterBreakdown 0 j hj2 hj]
    simp [pubRecOf]
  · rw [mapIdxFrom_pub_chars, calculateAbjadValue_inputName l _ cr hcv,
      calculateAbjadValue_chars l _ cr hcv]

theorem vmAdd_mem : ∀ (m : List (Int × List Int)) (v i r j : Int),
    j ∈ vmIdsAt (vmAdd m v i) r → j ∈ vmIdsAt m r ∨ (r = v ∧ j = i) := by
  intro m
  induction m with
  | nil =>
    intro v i r j h
    unfold vmAdd vmIdsAt at h
    rw [List.lookup_cons] at h
    by_cases hrk : r = v
    · rw [beq_iff_eq.mpr hrk] at h
      dsimp only at h
      simp only [List.mem_singleton] at h
      exact Or.inr ⟨hrk, h⟩
    · rw [beq_eq_false_iff_ne.mpr hrk] at h
      dsimp only at h
      simp only [List.lookup_nil] at h
      cases h
  | cons kv rest ih =>
    intro v i r j h
    rcases kv with ⟨k, ids⟩
    unfold vmAdd at h
    split at h
    · rename_i hkv
      subst hkv
      unfold vmIdsAt at h ⊢
      rw [List.lookup_cons] at h ⊢
      by_cases hrk : r = k
      · rw [beq_iff_eq.mpr hrk] at h ⊢
        dsimp only at h ⊢
        rcases List.mem_append.mp h with h1 | h1
        · exact Or.inl h1
        · simp only [List.mem_singleton] at h1
          exact Or.inr ⟨hrk, h1⟩
      · rw [beq_eq_false_iff_ne.mpr hrk] at h ⊢
        dsimp only at h ⊢
        exact Or.inl h
    · rename_i hkv
      unfold vmIdsAt at h ⊢
      rw [List.lookup_cons] at h ⊢
      by_cases hrk : r = k
      · rw [beq_iff_eq.mpr hrk] at h ⊢
        dsimp only at h ⊢
        exact Or.inl h
      · rw [beq_eq_false_iff_ne.mpr hrk] at h ⊢
        dsimp only at h ⊢
        exact ih v i r j h

theorem foldl_vmAdd_mem : ∀ (names : List Entity) (m : List (Int × List Int)) (r j : Int),
    j ∈ vmIdsAt (names.foldl (fun acc n => vmAdd acc n.abjad_value n.id) m) r →
    j ∈ vmIdsAt m r ∨ ∃ e ∈ names, e.id = j ∧ e.abjad_value = r := by
  intro names
  induction names with
  | nil => intro m r j h; exact Or.inl h
  | cons n rest ih =>
    intro m r j h
    rw [List.foldl_cons] at h
    rcases ih _ r j h with h1 | ⟨e, he, hej, hev⟩
    · rcases vmAdd_mem m n.abjad_value n.id r j h1 with h2 | ⟨hr, hj⟩
      · exact Or.inl h2
      · exact Or.inr ⟨n, List.mem_cons_self _ _, hj.symm, hr.symm⟩
    · exact Or.inr ⟨e, List.mem_cons_of_mem _ he, hej, hev⟩

theorem buildValueMap_mem (names : List Entity) (r j : Int)
    (h : j ∈ vmIdsAt (buildValueMap names) r) :
    ∃ e ∈ names, e.id = j ∧ e.abjad_value = r := by
  rcases foldl_vmAdd_mem names [] r j h with h1 | h2
  · unfold vmIdsAt at h1
    simp [List.lookup_nil] at h1
  · exact h2

theorem getNameById_shape (names : List Entity) (i : Int) (e : Entity)
    (h : getNameById names i = some e) : e ∈ names ∧ e.id = i := by
  unfold getNameById at h
  refine ⟨List.mem_of_find?_eq_some h, ?_⟩
  have := List.find?_some h
  exact eq_of_beq this

theorem scanName2Ids_sound (names : List Entity) (name1 : Entity) (v : Int)
    (hu : ∀ e1 ∈ names, ∀ e2 ∈ names, e1.id = e2.id → e1 = e2) :
    ∀ (ids : List Int) (acc : PairAcc),
    (∀ j ∈ ids, ∃ e ∈ names, e.id = j ∧ e.abjad_value = v - name1.abjad_value) →
    (∀ co ∈ acc.combos, comboSound v co) →
    ∀ co ∈ (scanName2Ids names name1 (some v) ids acc).combos, comboSound v co := by
  intro ids
  induction ids with
  | nil => intro acc _ hacc co hco; exact hacc co hco
  | cons j rest ih =>
    intro acc hids hacc co hco
    have hrest : ∀ k ∈ rest, ∃ e ∈ names, e.id = k ∧
        e.abjad_value = v - name1.abjad_value :=
      fun k hk => hids k (List.mem_cons_of_mem _ hk)
    simp only [scanName2Ids] at hco
    split at hco
    · exact ih acc hrest hacc co hco
    · rename_i hne
      split at hco
      · exact ih acc hrest hacc co hco
      · rename_i hnotrec
        cases hfind : getNameById names j with
        | none =>
          rw [hfind] at hco
          dsimp only at hco
          exact ih ⟨canonicalPair name1.id j :: acc.recorded, acc.combos⟩ hrest hacc co hco
        | some name2 =>
          rw [hfind] at hco
          dsimp only at hco
          refine ih _ hrest ?_ co hco
          intro co2 hco2
          rcases List.mem_append.mp hco2 with hold | hnew
          · exact hacc co2 hold
          · simp only [List.mem_singleton] at hnew
            subst hnew
            obtain ⟨hmem2, hid2⟩ := getNameById_shape names j name2 hfind
            obtain ⟨e, hme, hej, hev⟩ := hids j (List.mem_cons_self _ _)
            have he2 : e = name2 := hu e hme name2 hmem2 (by rw [hej, hid2])
            constructor
            · intro hideq
              exact (by simpa using hne : ¬name1.id = j) hideq
            · have : name2.abjad_value = v - name1.abjad_value := by
                rw [← he2]
                exact hev
              simp only [comboSound]
              omega

theorem pairScan_sound (names : List Entity) (v : Int) (m : MatcherState)
    (hm : m.valueToIds = buildValueMap names)
    (hu : ∀ e1 ∈ names, ∀ e2 ∈ names, e1.id = e2.id → e1 = e2) :
    ∀ (queue : List Entity) (acc : PairAcc),
    (∀ co ∈ acc.combos, comboSound v co) →
    ∀ co ∈ (pairScan m names (some v) queue acc).combos, comboSound v co := by
  intro queue
  induction queue with
  | nil => intro acc hacc co hco; exact hacc co hco
  | cons n1 qrest ih =>
    intro acc hacc co hco
    simp only [pairScan] at hco
    split at hco
    · rename_i hkey
      refine ih _ ?_ co hco
      apply scanName2Ids_sound names n1 v hu
      · intro jj hjj
        rw [hm] at hjj
        exact buildValueMap_mem names _ jj hjj
      · exact hacc
    · exact ih acc hacc co hco

theorem mem_findTwo_combos (m : MatcherState) (l : DataLoader) (t : Option Int)
    (limit : Nat) (co : Combination)
    (hco : co ∈ (findTwoNameCombination m l t limit).combinations) :
    co ∈ (pairScan m l.divineNames t l.divineNames
      { recorded := [], combos := [] }).combos := by
  unfold findTwoNameCombination at hco
  simp only [MatchResult.combinations] at hco
  have h1 := List.mem_of_mem_take hco
  exact (List.perm_insertionSort (fun a b => comboLE a b = true) _).mem_iff.mp h1

theorem findTwo_sound (m : MatcherState) (l : DataLoader) (v : Int) (limit : Nat)
    (hm : m.valueToIds = buildValueMap l.divineNames)
    (hu : ∀ e1 ∈ l.divineNames, ∀ e2 ∈ l.divineNames, e1.id = e2.id → e1 = e2) :
    ∀ co ∈ (findTwoNameCombination m l (some v) limit).combinations,
      co.name1.id ≠ co.name2.id ∧ co.name1.abjad_value + co.name2.abjad_value = v := by
  intro co hco
  exact pairScan_sound l.divineNames v m hm hu l.divineNames
    { recorded := [], combos := [] } (fun co2 hco2 => absurd hco2 (List.not_mem_nil co2))
    co (mem_findTwo_combos m l (some v) limit co hco)

theorem findDirectMatch_shape (l : DataLoader) (t : Option Int) (r : MatchResult)
    (h : findDirectMatch l t = .ok r) :
    ∃ f ns cnt, r = .direct f ns cnt := by
  unfold findDirectMatch at h
  cases hg : getNamesByValue l t with
  | error e => rw [hg] at h; cases h
  | ok names =>
    rw [hg] at h
    dsimp only at h
    split at h
    · injection h with hr
      exact ⟨_, _, _, hr.symm⟩
    · injection h with hr
      exact ⟨_, _, _, hr.symm⟩

/-- C1: Pair-search soundness — on a matcher whose value map was built
from the loader's catalog (as the `NameMatcher` constructor does) with
pairwise-distinct entity ids, every combination in a `findMatch` result
for target `v` pairs two entities distinct by id whose values sum
exactly to `v`. -/
theorem c1_pair_soundness (m : MatcherState) (l : DataLoader) (v : Int)
    (r : MatchResult)
    (hm : m.valueToIds = buildValueMap l.divineNames)
    (hu : ∀ e1 ∈ l.divineNames, ∀ e2 ∈ l.divineNames, e1.id = e2.id → e1 = e2)
    (hr : findMatch m l (some v) = .ok r) :
    ∀ co ∈ r.combinations, co.name1.id ≠ co.name2.id ∧
      co.name1.abjad_value + co.name2.abjad_value = v := by
  unfold findMatch at hr
  cases hd : findDirectMatch l (some v) with
  | error e => rw [hd] at hr; cases hr
  | ok dr =>
    rw [hd] at hr
    dsimp only at hr
    split at hr
    · injection hr with hr2
      obtain ⟨f, ns, cnt, hshape⟩ := findDirectMatch_shape l (some v) dr hd
      subst hr2
      subst hshape
      intro co hco
      simp only [MatchResult.combinations] at hco
      cases hco
    · injection hr with hr2
      subst hr2
      exact findTwo_sound m l v 10 hm hu

theorem contains_iff_mem (l : List (Int × Int)) (k : Int × Int) :
    l.contains k = true ↔ k ∈ l := by
  simp [List.contains]

theorem scanName2Ids_keys (names : List Entity) (name1 : Entity) (t : Option Int) :
    ∀ (ids : List Int) (acc : PairAcc),
    (acc.combos.map comboKey).Nodup →
    (∀ co ∈ acc.combos, comboKey co ∈ acc.recorded) →
    ((scanName2Ids names name1 t ids acc).combos.map comboKey).Nodup ∧
      (∀ co ∈ (scanName2Ids names name1 t ids acc).combos,
        comboKey co ∈ (scanName2Ids names name1 t ids acc).recorded) ∧
      (∀ k ∈ acc.recorded, k ∈ (scanName2Ids names name1 t ids acc).recorded) := by
  intro ids
  induction ids with
  | nil => intro acc h1 h2; exact ⟨h1, h2, fun k hk => hk⟩
  | cons j rest ih =>
    intro acc h1 h2
    simp only [scanName2Ids]
    split
    · exact ih acc h1 h2
    · split
      · exact ih acc h1 h2
      · rename_i hne hnotrec
        have hkey : canonicalPair name1.id j ∉ acc.recorded := by
          intro hk
          exact hnotrec ((contains_iff_mem _ _).mpr hk)
        cases hfind : getNameById names j with
        | none =>
          have hrec := ih ⟨canonicalPair name1.id j :: acc.recorded, acc.combos⟩ h1
            (fun co hco => List.mem_cons_of_mem _ (h2 co hco))
          exact ⟨hrec.1, hrec.2.1,
            fun k hk => hrec.2.2 k (List.mem_cons_of_mem _ hk)⟩
        | some name2 =>
          set combo : Combination :=
            { name1 := { id := name1.id, arabic_name := name1.arabic_name,
                         english_name := name1.english_name,
                         meaning := name1.meaning,
                         abjad_value := name1.abjad_value },
              name2 := { id := j, arabic_name := name2.arabic_name,
                         english_name := name2.english_name,
                         meaning := name2.meaning,
                         abjad_value := name2.abjad_value },
              total := t } with hcombo
          have hkeyco : comboKey combo = canonicalPair name1.id j := rfl
          have h1a : ((acc.combos ++ [combo]).map comboKey).Nodup := by
            rw [List.map_append, List.nodup_append]
            refine ⟨h1, by simp, ?_⟩
            intro k hk1 hk2
            simp only [List.map_cons, List.map_nil, List.mem_singleton] at hk2
            subst hk2
            rcases List.mem_map.mp hk1 with ⟨co, hco, hkey2⟩
            apply hkey
            rw [← hkeyco, ← hkey2]
            exact h2 co hco
          have h2a : ∀ co ∈ acc.combos ++ [combo],
              comboKey co ∈ canonicalPair name1.id j :: acc.recorded := by
            intro co hco
            rcases List.mem_append.mp hco with hold | hnew
            · exact List.mem_cons_of_mem _ (h2 co hold)
            · simp only [List.mem_singleton] at hnew
              subst hnew
              rw [hkeyco]
              exact List.mem_cons_self _ _
          have hrec := ih ⟨canonicalPair name1.id j :: acc.recorded,
            acc.combos ++ [combo]⟩ h1a h2a
          exact ⟨hrec.1, hrec.2.1,
            fun k hk => hrec.2.2 k (List.mem_cons_of_mem _ hk)⟩

theorem pairScan_keys (m : MatcherState) (names : List Entity) (t : Option Int) :
    ∀ (queue : List Entity) (acc : PairAcc),
    (acc.combos.map comboKey).Nodup →
    (∀ co ∈ acc.combos, comboKey co ∈ acc.recorded) →
    ((pairScan m names t queue acc).combos.map comboKey).Nodup ∧
      (∀ co ∈ (pairScan m names t queue acc).combos,
        comboKey co ∈ (pairScan m names t queue acc).recorded) := by
  intro queue
  induction queue with
  | nil => intro acc h1 h2; exact ⟨h1, h2⟩
  | cons n1 qrest ih =>
    intro acc h1 h2
    simp only [pairScan]
    cases t with
    | none => exact ih acc h1 h2
    | some tv =>
      dsimp only
      split
      · have hscan := scanName2Ids_keys names n1 (some tv)
          (vmIdsAt m.valueToIds (tv - n1.abjad_value)) acc h1 h2
        exact ih _ hscan.1 hscan.2.1
      · exact ih acc h1 h2

theorem samePairIds_symm (x y : Combination) (h : samePairIds x y) : samePairIds y x := by
  rcases h with ⟨h1, h2⟩ | ⟨h1, h2⟩
  · exact Or.inl ⟨h1.symm, h2.symm⟩
  · exact Or.inr ⟨h2.symm, h1.symm⟩

theorem samePairIds_key (x y : Combination) (h : samePairIds x y) :
    comboKey x = comboKey y := by
  rcases h with ⟨h1, h2⟩ | ⟨h1, h2⟩
  · unfold comboKey
    rw [h1, h2]
  · unfold comboKey
    rw [h1, h2]
    exact canonicalPair_symm _ _

theorem findTwo_unique (m : MatcherState) (l : DataLoader) (t : Option Int)
    (limit : Nat) : List.Pairwise (fun x y => ¬ samePairIds x y)
      (findTwoNameCombination m l t limit).combinations := by
  have h := pairScan_keys m l.divineNames t l.divineNames
    { recorded := [], combos := [] } (by simp) (by simp)
  have hpw : List.Pairwise (fun a b => comboKey a ≠ comboKey b)
      (pairScan m l.divineNames t l.divineNames
        { recorded := [], combos := [] }).combos := by
    have h1 := h.1
    rw [List.Nodup, List.pairwise_map] at h1
    exact h1
  have hperm := List.perm_insertionSort (fun a b => comboLE a b = true)
    (pairScan m l.divineNames t l.divineNames
      { recorded := [], combos := [] }).combos
  have hsorted : List.Pairwise (fun a b => comboKey a ≠ comboKey b)
      ((pairScan m l.divineNames t l.divineNames
        { recorded := [], combos := [] }).combos.insertionSort
          (fun a b => comboLE a b = true)) :=
    (List.Perm.pairwise_iff (fun hxy heq => hxy heq.symm) hperm).mpr hpw
  have htake : List.Pairwise (fun a b => comboKey a ≠ comboKey b)
      (((pairScan m l.divineNames t l.divineNames
        { recorded := [], combos := [] }).combos.insertionSort
          (fun a b => comboLE a b = true)).take limit) :=
    List.Pairwise.sublist (List.take_sublist _ _) hsorted
  unfold findTwoNameCombination
  simp only [MatchResult.combinations]
  exact htake.imp (fun hk hsame => hk (samePairIds_key _ _ hsame))

/-- C3: Pair-search uniqueness — in a `findMatch` result no unordered
pair of entity ids appears in two different combinations: the canonical
key recorded for `A+B` also blocks `B+A`. -/
theorem c3_pair_uniqueness (m : MatcherState) (l : DataLoader) (t : Option Int)
    (r : MatchResult) (hr : findMatch m l t = .ok r) :
    List.Pairwise (fun x y => ¬ samePairIds x y) r.combinations := by
  unfold findMatch at hr
  cases hd : findDirectMatch l t with
  | error e => rw [hd] at hr; cases hr
  | ok dr =>
    rw [hd] at hr
    dsimp only at hr
    split at hr
    · injection hr with hr2
      obtain ⟨f, ns, cnt, hshape⟩ := findDirectMatch_shape l t dr hd
      subst hr2
      subst hshape
      simp only [MatchResult.combinations]
      exact List.Pairwise.nil
    · injection hr with hr2
      subst hr2
      exact findTwo_unique m l t 10

/-- C2: Direct-match priority — when the value index holds a nonempty
bucket for `v`, `findMatch` returns the direct result listing exactly
that bucket and never the pair shape; the pair search runs only when
the direct lookup comes back empty. -/
theorem c2_direct_priority (m : MatcherState) (l : DataLoader) (v : Int) :
    (∀ es, l.namesIndex.lookup v = some es → es ≠ [] →
      findMatch m l (some v) = .ok (.direct true es es.length)) ∧
    (l.namesIndex ≠ [] → (l.namesIndex.lookup v).getD [] = [] →
      findMatch m l (some v) = .ok (findTwoNameCombination m l (some v) 10)) := by
  constructor
  · intro es hlook hne
    have hnidx : l.namesIndex ≠ [] := by
      intro h0
      rw [h0] at hlook
      cases hlook
    have hget : getNamesByValue l (some v) = .ok es := by
      unfold getNamesByValue
      rw [if_neg hnidx]
      dsimp only
      rw [hlook]
    have hdir : findDirectMatch l (some v) = .ok (.direct true es es.length) := by
      unfold findDirectMatch
      rw [hget]
      dsimp only
      rw [if_pos (List.length_pos.mpr hne)]
    unfold findMatch
    rw [hdir]
    dsimp only [MatchResult.found]
    rw [if_pos rfl]
  · intro hnidx hempty
    have hget : getNamesByValue l (some v) = .ok [] := by
      unfold getNamesByValue
      rw [if_neg hnidx]
      dsimp only
      cases hlook : l.namesIndex.lookup v with
      | none => rfl
      | some es =>
        rw [hlook] at hempty
        simp only [Option.getD_some] at hempty
        rw [hempty]
    have hdir : findDirectMatch l (some v) = .ok (.direct false [] 0) := by
      unfold findDirectMatch
      rw [hget]
      dsimp only
      rw [if_neg (by simp)]
    unfold findMatch
    rw [hdir]
    dsimp only [MatchResult.found]
    rw [if_neg (by simp)]

theorem procBody_parts (a b : List Char) (rsb : Bool) (t : List Char) :
    (procBody a rsb t).1 = (procBody b rsb t).1 ∧
    (procBody a rsb t).2.success = (procBody b rsb t).2.success ∧
    (procBody a rsb t).2.errors = (procBody b rsb t).2.errors ∧
    (procBody a rsb t).2.cleaned = (procBody b rsb t).2.cleaned := by
  unfold procBody
  by_cases h1 : t = []
  · rw [if_pos h1, if_pos h1]
    exact ⟨rfl, rfl, rfl, rfl⟩
  · by_cases h2 : normCleaned rsb t = []
    · rw [if_neg h1, if_neg h1, if_pos h2, if_pos h2]
      exact ⟨rfl, rfl, rfl, rfl⟩
    · rw [if_neg h1, if_neg h1, if_neg h2, if_neg h2]
      exact ⟨rfl, rfl, rfl, rfl⟩

theorem processNameInput_trim (name : List Char) :
    (processNameInput (jsTrim name)).1 = (processNameInput name).1 ∧
    (processNameInput (jsTrim name)).2.success = (processNameInput name).2.success ∧
    (processNameInput (jsTrim name)).2.errors = (processNameInput name).2.errors ∧
    (processNameInput (jsTrim name)).2.cleaned = (processNameInput name).2.cleaned := by
  unfold processNameInput
  rw [removeSpaces_jsTrim]
  exact procBody_parts (jsTrim name) name false (removeSpaces name)

theorem calculateAbjad_norm_fail (l : DataLoader) (name : List Char)
    (hs : (processNameInput name).2.success = false) :
    calculateAbjad l (.vstr name) =
      .failure ("Invalid input: " ++ joinComma (processNameInput name).2.errors) := by
  unfold calculateAbjad calculateAbjadTry processNameInputJS
  dsimp only
  rcases hps : processNameInput name with ⟨cleaned, status⟩
  have hsf : status.success = false := by rw [hps] at hs; exact hs
  dsimp only
  rw [if_pos hsf]

/-- C8: Strict pipeline abort — when the normalizer fails, the public
`calculateAbjad` returns a failure carrying exactly the normalizer's
error list (joined by comma-space behind the `Invalid input:` label),
the result is independent of the calculator's loader state (the
Calculator is never consulted), and the app-controller pipeline leaves
the process state untouched (the Matcher is never invoked); when the
normalizer succeeds but the Calculator fails, the failure carries the
calculator's error list and the pipeline state is again untouched. -/
theorem c8_pipeline_abort (s : ISMState) (l2 : DataLoader) (name : List Char) :
    ((processNameInput name).2.success = false →
      calculateAbjad s.loader (.vstr name) =
        .failure ("Invalid input: " ++ joinComma (processNameInput name).2.errors) ∧
      calculateAbjad s.loader (.vstr name) = calculateAbjad l2 (.vstr name) ∧
      (runPipeline s name).2 = s) ∧
    (∀ cr : CalcResult, (processNameInput name).2.success = true →
      calculateAbjadValue s.loader (processNameInput name).1 = .ok cr →
      cr.success = false →
      calculateAbjad s.loader (.vstr name) = .failure (joinComma cr.errors) ∧
      (runPipeline s name).2 = s) := by
  constructor
  · intro hs
    refine ⟨calculateAbjad_norm_fail s.loader name hs, ?_, ?_⟩
    · rw [calculateAbjad_norm_fail s.loader name hs, calculateAbjad_norm_fail l2 name hs]
    · unfold runPipeline
      by_cases htr : jsTrim name = []
      · rw [if_pos htr]
      · rw [if_neg htr]
        have hst : (processNameInput (jsTrim name)).2.success = false := by
          rw [(processNameInput_trim name).2.1]
          exact hs
        rw [calculateAbjad_norm_fail s.loader (jsTrim name) hst]
  · intro cr hs hcv hcf
    have hmain : ∀ nm : List Char, (processNameInput nm).2.success = true →
        calculateAbjadValue s.loader (processNameInput nm).1 = .ok cr →
        calculateAbjad s.loader (.vstr nm) = .failure (joinComma cr.errors) := by
      intro nm hs2 hcv2
      unfold calculateAbjad calculateAbjadTry processNameInputJS
      dsimp only
      rcases hps : processNameInput nm with ⟨cleaned, status⟩
      have hsf : status.success = true := by rw [hps] at hs2; exact hs2
      rw [hps] at hcv2
      dsimp only at hcv2
      dsimp only
      rw [if_neg (by simp [hsf]), hcv2]
      dsimp only
      rw [if_pos hcf]
    refine ⟨hmain name hs hcv, ?_⟩
    unfold runPipeline
    by_cases htr : jsTrim name = []
    · rw [if_pos htr]
    · rw [if_neg htr]
      have hst : (processNameInput (jsTrim name)).2.success = true := by
        rw [(processNameInput_trim name).2.1]
        exact hs
      have hclt : (processNameInput (jsTrim name)).1 = (processNameInput name).1 :=
        (processNameInput_trim name).1
      have hcvt : calculateAbjadValue s.loader (processNameInput (jsTrim name)).1 = .ok cr := by
        rw [hclt]
        exact hcv
      rw [hmain (jsTrim name) hst hcvt]

theorem calcValue_uninit (l : DataLoader) (c : List Char) (hc : c ≠ [])
    (ha : l.abjadValues = []) : calculateAbjadValue l c =
      .error "Abjad values not loaded. Call loadAll() first." := by
  unfold calculateAbjadValue
  rw [if_neg hc]
  cases c with
  | nil => exact absurd rfl hc
  | cons ch rest =>
    have hg : getLetterValue l ch = .error "Abjad values not loaded. Call loadAll() first." := by
      unfold getLetterValue
      rw [if_pos ha]
    simp only [calcLoop, hg]

theorem getMatcherS_loader (s : ISMState) : (getMatcherS s).2.loader = s.loader := by
  unfold getMatcherS
  cases s.matcherCache with
  | none => rfl
  | some m => rfl

/-- C9: No public entry point throws — calling the public calculate
before `initialize` (empty weight table) yields a structured
`success = false` result carrying the loader's uninitialized-table
message; every internal exception (the loader throws, the `TypeError`
on a non-string argument) is caught at `calculateAbjad` and
`matchDivineNames` and converted to a failure result. -/
theorem c9_no_throw (l : DataLoader) (s : ISMState) (v : JSVal) (name : List Char)
    (n : Int) :
    (l.abjadValues = [] → (calculateAbjad l (.vstr name)).isSuccess = false) ∧
    (l.abjadValues = [] → (processNameInput name).2.success = true →
      calculateAbjad l (.vstr name) =
        .failure "Abjad values not loaded. Call loadAll() first.") ∧
    (∀ e, calculateAbjadTry l v = .error e → calculateAbjad l v = .failure e) ∧
    ((∀ str, v ≠ .vstr str) →
      calculateAbjad l v = .failure "inputString.trim is not a function") ∧
    (s.loader.namesIndex = [] → (matchDivineNames s (.vnum n)).1 =
      .failure "Names index not loaded. Call loadAll() first.") := by
  have huninit : l.abjadValues = [] → (processNameInput name).2.success = true →
      calculateAbjad l (.vstr name) =
        .failure "Abjad values not loaded. Call loadAll() first." := by
    intro ha hs
    obtain ⟨h1, h2, hne⟩ := processNameInput_success_shape name hs
    unfold calculateAbjad calculateAbjadTry processNameInputJS
    dsimp only
    rcases hps : processNameInput name with ⟨cleaned, status⟩
    have hsf : status.success = true := by rw [hps] at hs; exact hs
    have hcl : cleaned = normCleaned false (removeSpaces name) := by
      rw [hps] at h1
      exact h1
    have hclne : cleaned ≠ [] := by
      rw [hcl]
      exact hne
    dsimp only
    rw [if_neg (by simp [hsf]), calcValue_uninit l cleaned hclne ha]
  refine ⟨?_, huninit, ?_, ?_, ?_⟩
  · intro ha
    cases hsu : (processNameInput name).2.success with
    | false =>
      rw [calculateAbjad_norm_fail l name hsu]
      rfl
    | true =>
      rw [huninit ha hsu]
      rfl
  · intro e he
    unfold calculateAbjad
    rw [he]
  · intro hnostr
    cases v with
    | vstr str => exact absurd rfl (hnostr str)
    | vnum m => rfl
    | vfrac neg ip ds => rfl
    | vnull => rfl
    | vundef => rfl
    | vbool b => rfl
  · intro hidx
    unfold matchDivineNames
    dsimp only
    have hload : (getMatcherS s).2.loader.namesIndex = [] := by
      rw [getMatcherS_loader]
      exact hidx
    have hfm : findMatch (getMatcherS s).1 (getMatcherS s).2.loader
        (jsParseInt (.vnum n)) = .error "Names index not loaded. Call loadAll() first." := by
      unfold findMatch findDirectMatch getNamesByValue
      rw [if_pos hload]
    rw [hfm]

theorem pairScan_none (m : MatcherState) (names : List Entity) :
    ∀ (queue : List Entity) (acc : PairAcc),
    pairScan m names none queue acc = acc := by
  intro queue
  induction queue with
  | nil => intro acc; rfl
  | cons n1 rest ih => intro acc; simp only [pairScan]; exact ih acc

/-- C10: Non-numeric match input is silently a no-match — with an
initialized catalog, an argument that `parseInt` turns into `NaN`
makes `matchDivineNames` return a successful pair-shaped result with
`found = false` and no combinations (the `NaN` misses every index key
and the error branch guarding `parseInt` is unreachable since
`parseInt` never throws), while a fractional numeric argument is
truncated to its integer part before matching. -/
theorem c10_nonnumeric_match (s : ISMState) (str : List Char) (neg : Bool)
    (ip : Nat) (ds : List Char) (hidx : s.loader.namesIndex ≠ []) :
    (jsParseIntStr str = none →
      (matchDivineNames s (.vstr str)).1 = .pairR false none [] 0) ∧
    (matchDivineNames s (.vfrac neg ip ds)).1 =
      (matchDivineNames s (.vnum (if neg then -(ip : Int) else (ip : Int)))).1 := by
  constructor
  · intro hp
    unfold matchDivineNames
    dsimp only
    have hparse : jsParseInt (.vstr str) = none := hp
    rw [hparse]
    have hload : (getMatcherS s).2.loader.namesIndex ≠ [] := by
      rw [getMatcherS_loader]
      exact hidx
    have hget : getNamesByValue (getMatcherS s).2.loader none = .ok [] := by
      unfold getNamesByValue
      rw [if_neg hload]
    have hdir : findDirectMatch (getMatcherS s).2.loader none = .ok (.direct false [] 0) := by
      unfold findDirectMatch
      rw [hget]
      dsimp only
      rw [if_neg (by simp)]
    have htwo : findTwoNameCombination (getMatcherS s).1 (getMatcherS s).2.loader none 10 =
        .pair false none [] 0 := by
      unfold findTwoNameCombination
      rw [pairScan_none]
      simp [List.insertionSort]
    have hfm : findMatch (getMatcherS s).1 (getMatcherS s).2.loader none =
        .ok (.pair false none [] 0) := by
      unfold findMatch
      rw [hdir]
      dsimp only [MatchResult.found]
      rw [if_neg (by simp), htwo]
    rw [hfm]
  · have hpe : jsParseInt (.vfrac neg ip ds) =
        jsParseInt (.vnum (if neg then -(ip : Int) else (ip : Int))) := by
      rw [parse_vfrac, parse_vnum]
    unfold matchDivineNames
    dsimp only
    rw [hpe]

/-- C5: Hot-reload does not rebuild derived state — after a match has
cached the `NameMatcher`, re-running `initializeCalculator` with a new
catalog leaves the matcher's `valueToIds` stale, so a pair search that
the most recent catalog satisfies (30 + 36 = 66) reports `found =
false`, while a fresh initialization with the same catalog finds the
pair.  This contradicts the claim that a re-initialize discards all
previously derived state. -/
theorem c5_hot_reload_stale :
    c5run1.1 = .pairR true (some 66)
      [{ name1 := c5e1, name2 := c5e2, total := some 66 }] 1 ∧
    (matchDivineNames c5s3 (.vnum 66)).1 = .pairR false (some 66) [] 0 ∧
    (matchDivineNames (initializeCalculator initialState c5ab c5cat2 c5idx2)
      (.vnum 66)).1 = .pairR true (some 66)
      [{ name1 := c5e3, name2 := c5e4, total := some 66 }] 1 := by
  refine ⟨?_, ?_, ?_⟩ <;> decide

theorem c1_pair_soundness_witness :
    c1wCombo.name1.id ≠ c1wCombo.name2.id ∧
    c1wCombo.name1.abjad_value + c1wCombo.name2.abjad_value = 66 :=
  c1_pair_soundness wMatcher1 wLoader1 66 (.pair true (some 66) [c1wCombo] 1) rfl
    (by decide) rfl c1wCombo (by decide)

theorem c2_direct_priority_witness :
    findMatch wMatcher1 c2wLoader (some 66) = .ok (.direct true [c5e1, c5e2] 2) ∧
    findMatch wMatcher1 wLoader1 (some 66) =
      .ok (findTwoNameCombination wMatcher1 wLoader1 (some 66) 10) :=
  ⟨(c2_direct_priority wMatcher1 c2wLoader 66).1 [c5e1, c5e2] (by decide) (by decide),
   (c2_direct_priority wMatcher1 wLoader1 66).2 (by decide) (by decide)⟩

theorem c3_pair_uniqueness_witness :
    List.Pairwise (fun x y => ¬ samePairIds x y)
      (MatchResult.pair true (some 66) [c1wCombo] 1).combinations :=
  c3_pair_uniqueness wMatcher1 wLoader1 (some 66)
    (.pair true (some 66) [c1wCombo] 1) rfl

theorem c4_sum_invariant_witness :
    c4wRes.totalValue = (c4wRes.characterBreakdown.map InnerRecord.value).sum ∧
    c4wRes.charCount = c4wRes.characterBreakdown.length :=
  c4_sum_invariant c4wLoader c4wName c4wRes rfl rfl

theorem c6_normalizer_idempotent_witness :
    (processNameInput c6wInput).2.success = true ∧
    (processNameInput ((processNameInput c6wInput).2.cleaned)).2.cleaned =
      (processNameInput c6wInput).2.cleaned :=
  ⟨by decide, c6_normalizer_idempotent c6wInput (by decide)⟩

theorem c7_breakdown_positions_witness :
    (c7wBk.get ⟨1, by decide⟩).position = 1 + 1 ∧
    c7wBk.map PublicRecord.character = c4wName.filter (isMapped c7wLoader) := by
  have h := c7_breakdown_positions c7wLoader (.vstr c4wName) 6 c4wName c4wName c7wBk 2
    (by decide)
  exact ⟨h.1 1 (by decide), h.2⟩

theorem c8_pipeline_abort_witness :
    (processNameInput c8wName).2.success = false ∧
    calculateAbjad c5s1.loader (.vstr c8wName) =
      .failure ("Invalid input: " ++ joinComma (processNameInput c8wName).2.errors) ∧
    (runPipeline c5s1 c8wName).2 = c5s1 := by
  have h := (c8_pipeline_abort c5s1 initialState.loader c8wName).1 (by decide)
  exact ⟨by decide, h.1, h.2.2⟩

theorem c9_no_throw_witness :
    (calculateAbjad initialState.loader (.vstr c4wName)).isSuccess = false ∧
    calculateAbjad initialState.loader (.vstr c4wName) =
      .failure "Abjad values not loaded. Call loadAll() first." ∧
    calculateAbjad initialState.loader (.vnum 3) =
      .failure "inputString.trim is not a function" ∧
    (matchDivineNames initialState (.vnum 66)).1 =
      .failure "Names index not loaded. Call loadAll() first." := by
  have h := c9_no_throw initialState.loader initialState (.vnum 3) c4wName 66
  exact ⟨h.1 rfl, h.2.1 rfl (by decide),
    h.2.2.2.1 (fun str h2 => JSVal.noConfusion h2), h.2.2.2.2 rfl⟩

theorem c10_nonnumeric_match_witness :
    jsParseIntStr ['a', 'b', 'c'] = none ∧
    (matchDivineNames c5s1 (.vstr ['a', 'b', 'c'])).1 = .pairR false none [] 0 ∧
    (matchDivineNames c5s1 (.vfrac false 3 ['7'])).1 =
      (matchDivineNames c5s1 (.vnum 3)).1 := by
  have h := c10_nonnumeric_match c5s1 ['a', 'b', 'c'] false 3 ['7'] (by decide)
  exact ⟨by decide, h.1 (by decide), h.2⟩
